import Mathlib

/-!
# Verification of the streamCommit VDS core against its specification

This file is a shallow embedding, in Lean 4, of the cryptographic core of the
streamCommit repository (a pairing-based Verifiable Data Streaming system),
together with theorems settling the claims of the specification against the
code.

## Embedding convention

The source operates on elements of three cyclic groups 𝔾₁, 𝔾₂, 𝔾_T of prime
order `p` (via the charm-crypto pairing library), scalars in 𝔽_p, and a
type-3 bilinear map `e : 𝔾₁ × 𝔾₂ → 𝔾_T`.  Each group is cyclic of order `p`
with a fixed generator (`g` for 𝔾₁, `ĝ` for 𝔾₂, `e(g,ĝ)` for 𝔾_T), so the
map "discrete log with respect to the generator" is a group isomorphism onto
`(ZMod p, +)`.  We represent every group element by that discrete log:

* group multiplication becomes `+` on `ZMod p`;
* exponentiation by a scalar becomes `*`;
* the group identity (`group.init(G1, 1)` in the source) becomes `0`;
* the pairing becomes `e(g^a, ĝ^b) = e(g,ĝ)^(a*b)`, i.e. `*` on the logs;
* equality of group elements is equality of logs (the embedding is injective);
* the CRS element `g_list[i] = g^{α^i}` has log `α ^ i`, and likewise
  `g_hat_list[i] = ĝ^{α^i}` has log `α ^ i`.

Scalars (`ZR` in the source) are `ZMod p` directly.  Python lists holding
vectors `m`, `t`, … are 0-indexed; following the paper and the source's
formulas, we pass vectors as functions `ℕ → ZMod p` where `m j` stands for
the source's `m[j - 1]` (the entry at 1-based position `j`), and sum over
`Finset.Icc 1 n` exactly as the source loops `for j in range(1, n + 1)`.

The honest CRS produced by `keygen_crs` has `g_list` defined precisely on
`[1..2n] \ {n+1}` and `g_hat_list` on `[1..n]`; the membership guards in the
source (`if idx not in g_list: raise`) succeed on every index the embedded
functions use (each use is justified in the comments), so the embedded
functions compute the same group elements the source computes.
-/

namespace StreamCommit

open Finset

variable {p : ℕ}

/-! ## vc_smallness.commit — commitment constructors -/

/-- Embeds `vc_smallness/commit.py::commit_G`:
`C = g^γ · ∏_{j=1}^n g_j^{m_j}` — in logs, `γ + ∑_{j=1}^n α^j · m_j`. -/
def commit_G (n : ℕ) (m : ℕ → ZMod p) (gamma : ZMod p) (alpha : ZMod p) : ZMod p :=
  gamma + ∑ j in Icc 1 n, alpha ^ j * m j

/-- Embeds `vc_smallness/commit.py::commit_Ghat`:
`Ĉ = ĝ^γ · ∏_{j=1}^n ĝ_j^{x_j}` — in logs, `γ + ∑_{j=1}^n α^j · x_j`. -/
def commit_Ghat (n : ℕ) (x : ℕ → ZMod p) (gamma : ZMod p) (alpha : ZMod p) : ZMod p :=
  gamma + ∑ j in Icc 1 n, alpha ^ j * x j

/-- Embeds `vc_smallness/commit.py::commit_Cy`:
`C_y = g^{γ_y} · ∏_{j=1}^n g_{n+1-j}^{y_j x_j}` (reverse indexing; every index
`n+1-j` for `j ∈ [1..n]` lies in `[1..n]`, so the source's guard passes). -/
def commit_Cy (n : ℕ) (y x : ℕ → ZMod p) (gamma_y : ZMod p) (alpha : ZMod p) : ZMod p :=
  gamma_y + ∑ j in Icc 1 n, alpha ^ (n + 1 - j) * (y j * x j)

/-- Embeds `vc_smallness/commit.py::commit_V`: `V̂ = ĝ^r · ĝ_1^{x}`. -/
def commit_V (x_scalar r : ZMod p) (alpha : ZMod p) : ZMod p :=
  r + alpha ^ 1 * x_scalar

/-! ## vc_smallness.proofs — proof generators -/

/-- Embeds `vc_smallness/proofs.py::prove_point_open`:
`π_i = g_{n+1-i}^γ · ∏_{j∈[n], j≠i} g_{n+1-i+j}^{m_j}`.
For `1 ≤ i ≤ n` the indices `n+1-i ∈ [1..n]` and `n+1-i+j ∈ [2..2n] \ {n+1}`
(the excluded value `n+1` would need `j = i`, which the loop skips), so every
guard in the source passes. -/
def prove_point_open (n : ℕ) (m : ℕ → ZMod p) (gamma : ZMod p) (i : ℕ)
    (alpha : ZMod p) : ZMod p :=
  alpha ^ (n + 1 - i) * gamma + ∑ j in (Icc 1 n).erase i, alpha ^ (n + 1 - i + j) * m j

/-! ## vc_smallness.verify — verification equations -/

/-- Embeds `vc_smallness/verify.py::verify_1` (equation (1)):
`e(C, ∏_{i=1}^n ĝ_{n+1-i}^{t_i}) = e(∏_{i=1}^n π_i^{t_i}, ĝ) · e(g_1, ĝ_n)^{∑ m_i t_i}`.
In logs: `C · (∑ t_i α^{n+1-i}) = (∑ t_i π_i) · 1 + α^1 · α^n · (∑ m_i t_i)`.
Indices `n+1-i ∈ [1..n]` are always present in `g_hat_list`, so the guard
passes; `gt_eq` is log equality. -/
def verify_1 (n : ℕ) (C : ZMod p) (pis : ℕ → ZMod p) (t : ℕ → ZMod p)
    (m : ℕ → ZMod p) (alpha : ZMod p) : Bool :=
  let g_hat_prod : ZMod p := ∑ i in Icc 1 n, alpha ^ (n + 1 - i) * t i
  let lhs := C * g_hat_prod
  let pi_prod : ZMod p := ∑ i in Icc 1 n, t i * pis i
  let sum_mt : ZMod p := ∑ i in Icc 1 n, m i * t i
  let rhs := pi_prod * 1 + alpha ^ 1 * alpha ^ n * sum_mt
  decide (lhs = rhs)

/-- The single identity behind equation (1): multiplying the commitment log by
`α^{n+1-i}` splits into the point-opening log plus `α^{n+1} · m i`. -/
theorem commit_mul_shift (n : ℕ) (m : ℕ → ZMod p) (gamma alpha : ZMod p)
    (i : ℕ) (hi : i ∈ Icc 1 n) :
    commit_G n m gamma alpha * alpha ^ (n + 1 - i)
      = prove_point_open n m gamma i alpha + alpha ^ (n + 1) * m i := by
  have hin : i ≤ n := (mem_Icc.mp hi).2
  have hpow : ∀ j : ℕ, alpha ^ j * m j * alpha ^ (n + 1 - i)
      = alpha ^ (n + 1 - i + j) * m j := by
    intro j
    rw [pow_add]
    ring
  have hsplit : (∑ j in Icc 1 n, alpha ^ j * m j) * alpha ^ (n + 1 - i)
      = ∑ j in Icc 1 n, alpha ^ (n + 1 - i + j) * m j := by
    rw [Finset.sum_mul]
    exact Finset.sum_congr rfl fun j _ => hpow j
  have hii : n + 1 - i + i = n + 1 := Nat.sub_add_cancel (Nat.le_succ_of_le hin)
  have herase : ∑ j in Icc 1 n, alpha ^ (n + 1 - i + j) * m j
      = (∑ j in (Icc 1 n).erase i, alpha ^ (n + 1 - i + j) * m j)
        + alpha ^ (n + 1) * m i := by
    rw [← Finset.sum_erase_add _ _ hi, hii]
  unfold commit_G prove_point_open
  rw [add_mul, hsplit, herase]
  ring

/-- **C2.** For every message vector `m`, blinding `γ` and position
`i ∈ [1..n]`, verification equation (1) — as checked by `verify_1` on the
individual point-opening proofs `π_1 … π_n` — holds for the single-position
weight vector that is `1` at `i` and `0` elsewhere. -/
theorem point_open_single_position_verifies (n : ℕ) (m : ℕ → ZMod p)
    (gamma alpha : ZMod p) (i : ℕ) (hi : i ∈ Icc 1 n) :
    verify_1 n (commit_G n m gamma alpha)
      (fun j => prove_point_open n m gamma j alpha)
      (fun j => if j = i then 1 else 0) m alpha = true := by
  unfold verify_1
  rw [decide_eq_true_eq]
  have ht1 : ∑ j in Icc 1 n, alpha ^ (n + 1 - j) * (if j = i then (1 : ZMod p) else 0)
      = alpha ^ (n + 1 - i) := by
    rw [Finset.sum_congr rfl (fun j _ => by rw [mul_ite, mul_one, mul_zero]),
      Finset.sum_ite_eq' (Icc 1 n) i (fun j => alpha ^ (n + 1 - j)), if_pos hi]
  have ht2 : ∑ j in Icc 1 n,
      (if j = i then (1 : ZMod p) else 0) * prove_point_open n m gamma j alpha
      = prove_point_open n m gamma i alpha := by
    rw [Finset.sum_congr rfl (fun j _ => by rw [ite_mul, one_mul, zero_mul]),
      Finset.sum_ite_eq' (Icc 1 n) i (fun j => prove_point_open n m gamma j alpha),
      if_pos hi]
  have ht3 : ∑ j in Icc 1 n, m j * (if j = i then (1 : ZMod p) else 0) = m i := by
    rw [Finset.sum_congr rfl (fun j _ => by rw [mul_ite, mul_one, mul_zero]),
      Finset.sum_ite_eq' (Icc 1 n) i m, if_pos hi]
  simp only [ht1, ht2, ht3, mul_one]
  rw [commit_mul_shift n m gamma alpha i hi, ← pow_add alpha 1 n]
  ring_nf

/-- Witness for C2 at `p = 101`, `n = 3`, `m = (5, 7, 9)`, `γ = 4`, `α = 3`,
`i = 2`. -/
theorem point_open_single_position_verifies_witness :
    (2 : ℕ) ∈ Icc 1 3 ∧ verify_1 (p := 101) 3
      (commit_G 3 (fun j => (2 * j + 3 : ℕ)) 4 3)
      (fun j => prove_point_open 3 (fun j => (2 * j + 3 : ℕ)) 4 j 3)
      (fun j => if j = 2 then 1 else 0) (fun j => (2 * j + 3 : ℕ)) 3 = true :=
  ⟨by decide, point_open_single_position_verifies 3 _ 4 3 2 (by decide)⟩

/-! ## vds_accumulator.py — the bilinear-map accumulator

Polynomials over 𝔽_p are represented, exactly as the numpy arrays of the
source, by their coefficient lists in ascending order of degree (`l.get i` is
the coefficient of `κ^i`).

The source touches blacklist items and the queried item only through
`_hash_item`, which maps item bytes to a non-zero scalar.  The claims about
the accumulator are phrased in terms of those hash values ("its hash differs
from every `H(x)`"), so the embedded operations take the hash values
themselves as inputs: `y` below is the source's `y = H(item_to_check)` and
`X` is the source's `X_hashed`. -/

/-- Horner evaluation of an ascending coefficient list. -/
def evalAsc (l : List (ZMod p)) (z : ZMod p) : ZMod p :=
  l.foldr (fun c acc => c + z * acc) 0

/-- Coefficient-wise sum of two ascending coefficient lists (the shorter one
is padded with zeros, as numpy's slice-assignments do in the source). -/
def addPoly : List (ZMod p) → List (ZMod p) → List (ZMod p)
  | [], l => l
  | l, [] => l
  | a :: as', b :: bs => (a + b) :: addPoly as' bs

/-- One step of `_compute_polynomial_coefficients`'s product loop:
`new_poly[:-1] += poly * x_i; new_poly[1:] += poly`, i.e. multiplication of
`poly` by the monic linear factor `(x + κ)`. -/
def mulLinear (x : ZMod p) (poly : List (ZMod p)) : List (ZMod p) :=
  addPoly (poly.map (· * x)) (0 :: poly)

/-- Embeds `vds_accumulator.py::Accumulator._compute_polynomial_coefficients`:
coefficients of `f_X(κ) = ∏_{x∈X}(x + κ)`, built by starting from
`[x_1, 1]` and multiplying in each further `(x_i + κ)`. -/
def polyCoeffs : List (ZMod p) → List (ZMod p)
  | [] => [1]
  | x :: rest => rest.foldl (fun poly xi => mulLinear xi poly) [x, 1]

/-- `np.trim_zeros(l, 'b')`: drop high-degree zero coefficients. -/
def dropTrailingZeros (l : List (ZMod p)) : List (ZMod p) :=
  (l.reverse.dropWhile (fun c => decide (c = 0))).reverse

/-- The long-division loop of
`vds_accumulator.py::Accumulator._polynomial_division`, operating on the
coefficients in descending order (exactly as the source's loop walks from the
highest remainder coefficient downwards), specialised to the monic linear
divisor `[y, 1]` — the only divisor the source ever passes
(`divisor_lead_inv = 1`).  Each iteration emits the current leading
coefficient as the next quotient coefficient and folds `-y` times it into
the next coefficient, then drops the processed leading term. -/
def longDivDesc (y : ZMod p) : List (ZMod p) → List (ZMod p)
  | [] => []
  | [_] => []
  | a :: b :: rest => a :: longDivDesc y ((b - y * a) :: rest)

/-- Embeds `vds_accumulator.py::Accumulator._polynomial_division` at the
divisor `(y + κ)` (ascending coefficients `[y, 1]`): trim trailing zeros,
return `[0]` when the dividend's degree is below the divisor's, otherwise run
the long-division loop. -/
def polyDivLinear (dividend : List (ZMod p)) (y : ZMod p) : List (ZMod p) :=
  let d := dropTrailingZeros dividend
  if d.length < 2 then [0]
  else (longDivDesc y d.reverse).reverse

/-- The `u_y = -∏_{x∈X}(x - y) mod p` loop of `prove_non_membership`. -/
def uY (X : List (ZMod p)) (y : ZMod p) : ZMod p :=
  -(X.foldl (fun acc x => acc * (x - y)) 1)

/-- `h_X_coeffs[0] = h_X_coeffs[0] - (-u_y)`: add `u` to the constant
coefficient. -/
def addConst (l : List (ZMod p)) (u : ZMod p) : List (ZMod p) :=
  match l with
  | [] => []
  | c :: r => (c + u) :: r

/-- The `ValueError`s `prove_non_membership` can raise. -/
inductive AccErr : Type
  | xMissing
  | itemInBlacklist
  | insufficientKeys
  deriving DecidableEq

/-- Embeds `vds_accumulator.py::Accumulator.prove_non_membership`.
`server_keys` holds the logs of the server keys (honestly
`(g, g^s, …, g^{s^q})`, i.e. `(1, s, …, s^q)`); `y` is the hash of the
queried item and `X` the list of hashes of the blacklisted items.
`f_current` is accepted but not read, exactly as in the source.  The
try/except-visible distinction between the source's `ValueError` messages is
captured by the three `AccErr` constructors (`itemInBlacklist` is the error
whose message contains "in the blacklist"). -/
def prove_non_membership (server_keys : List (ZMod p)) (_f_current : ZMod p)
    (y : ZMod p) (X : List (ZMod p)) : Except AccErr (ZMod p × ZMod p) :=
  let q := server_keys.length - 1
  if q = 0 then .ok (0, -1)
  else if X.isEmpty then .error .xMissing
  else
    let u := uY X y
    if u = 0 then .error .itemInBlacklist
    else
      let fX := polyCoeffs X
      let hX := addConst fX u
      let qhat := polyDivLinear hX y
      if server_keys.length < qhat.length then .error .insufficientKeys
      else .ok ((qhat.zip server_keys).foldl (fun acc vw => acc + vw.1 * vw.2) 0, u)

/-- Embeds `vds_accumulator.py::Accumulator.verify_non_membership`:
`e(w, ĝ^{e_i} · ĝ^s) = e(f_current · g^u, ĝ)` — in logs,
`w * (y + s) = f_current + u` (the accumulator public key `(g, ĝ, ĝ^s)` has
logs `(1, 1, s)`, so only `s` is a parameter). -/
def verify_non_membership (s : ZMod p) (f_current : ZMod p) (y : ZMod p)
    (pi_non : ZMod p × ZMod p) : Bool :=
  decide (pi_non.1 * (y + s) = f_current + pi_non.2)

/-- Honest server keys after `k` revocations with secret `s`:
logs of `(g, g^s, …, g^{s^k})`. -/
def server_keys_honest (s : ZMod p) (k : ℕ) : List (ZMod p) :=
  (List.range (k + 1)).map (s ^ ·)

/-- Honest accumulator value after revoking the items with hashes `X`:
log of `f = g^{∏_{x∈X}(H(x)+s)}`. -/
def f_acc (X : List (ZMod p)) (s : ZMod p) : ZMod p :=
  (X.map (· + s)).prod

/-! ### Lemmas about the polynomial engine -/

theorem evalAsc_nil (z : ZMod p) : evalAsc [] z = 0 := rfl

theorem evalAsc_cons (c : ZMod p) (l : List (ZMod p)) (z : ZMod p) :
    evalAsc (c :: l) z = c + z * evalAsc l z := rfl

theorem evalAsc_addPoly (a : List (ZMod p)) :
    ∀ (b : List (ZMod p)) (z : ZMod p),
      evalAsc (addPoly a b) z = evalAsc a z + evalAsc b z := by
  induction a with
  | nil => intro b z; cases b <;> simp [addPoly, evalAsc_nil, evalAsc_cons]
  | cons c as ih =>
    intro b z
    cases b with
    | nil => simp [addPoly, evalAsc_nil]
    | cons d bs => simp only [addPoly, evalAsc_cons, ih]; ring

theorem evalAsc_map_mul (l : List (ZMod p)) (x z : ZMod p) :
    evalAsc (l.map (· * x)) z = evalAsc l z * x := by
  induction l with
  | nil => simp [evalAsc_nil]
  | cons c cs ih => simp only [List.map_cons, evalAsc_cons, ih]; ring

theorem evalAsc_mulLinear (x : ZMod p) (l : List (ZMod p)) (z : ZMod p) :
    evalAsc (mulLinear x l) z = (x + z) * evalAsc l z := by
  unfold mulLinear
  rw [evalAsc_addPoly, evalAsc_map_mul, evalAsc_cons]
  ring

theorem foldl_mulLinear_eval (rest : List (ZMod p)) :
    ∀ (start : List (ZMod p)) (z : ZMod p),
      evalAsc (rest.foldl (fun poly xi => mulLinear xi poly) start) z
        = evalAsc start z * (rest.map (· + z)).prod := by
  induction rest with
  | nil => intro start z; simp
  | cons x xs ih =>
    intro start z
    simp only [List.foldl_cons, List.map_cons, List.prod_cons, ih,
      evalAsc_mulLinear]
    ring

/-- `_compute_polynomial_coefficients` really computes `∏_{x∈X}(x + κ)`. -/
theorem polyCoeffs_eval (X : List (ZMod p)) (z : ZMod p) :
    evalAsc (polyCoeffs X) z = (X.map (· + z)).prod := by
  cases X with
  | nil => simp [polyCoeffs, evalAsc_cons, evalAsc_nil]
  | cons x rest =>
    simp only [polyCoeffs, foldl_mulLinear_eval, List.map_cons, List.prod_cons,
      evalAsc_cons, evalAsc_nil]
    ring

theorem addPoly_length (a : List (ZMod p)) :
    ∀ b : List (ZMod p), (addPoly a b).length = max a.length b.length := by
  induction a with
  | nil => intro b; cases b <;> simp [addPoly]
  | cons c as ih =>
    intro b
    cases b with
    | nil => simp [addPoly]
    | cons d bs => simp [addPoly, ih]; omega

theorem mulLinear_length (x : ZMod p) (l : List (ZMod p)) :
    (mulLinear x l).length = l.length + 1 := by
  simp [mulLinear, addPoly_length]

theorem polyCoeffs_length (X : List (ZMod p)) :
    (polyCoeffs X).length = X.length + 1 := by
  cases X with
  | nil => rfl
  | cons x rest =>
    show (rest.foldl (fun poly xi => mulLinear xi poly) [x, 1]).length
      = rest.length + 1 + 1
    have : ∀ (l : List (ZMod p)) (start : List (ZMod p)),
        (l.foldl (fun poly xi => mulLinear xi poly) start).length
          = start.length + l.length := by
      intro l
      induction l with
      | nil => intro start; simp
      | cons a as ih =>
        intro start
        simp only [List.foldl_cons, ih, mulLinear_length, List.length_cons]
        omega
    rw [this]
    simp only [List.length_cons, List.length_nil]
    omega

/-- Descending-order Horner evaluation (the view under which
`_polynomial_division` walks its arrays). -/
def evalDesc (l : List (ZMod p)) (z : ZMod p) : ZMod p :=
  l.foldl (fun acc c => acc * z + c) 0

theorem evalDesc_foldl_acc (l : List (ZMod p)) (z : ZMod p) :
    ∀ acc : ZMod p, l.foldl (fun a c => a * z + c) acc
      = acc * z ^ l.length + l.foldl (fun a c => a * z + c) 0 := by
  induction l with
  | nil => intro acc; simp
  | cons c cs ih =>
    intro acc
    simp only [List.foldl_cons, List.length_cons]
    rw [ih (acc * z + c), ih (0 * z + c)]
    ring

theorem evalDesc_cons (a : ZMod p) (l : List (ZMod p)) (z : ZMod p) :
    evalDesc (a :: l) z = a * z ^ l.length + evalDesc l z := by
  unfold evalDesc
  simp only [List.foldl_cons]
  rw [evalDesc_foldl_acc]
  ring_nf

theorem longDivDesc_length (y : ZMod p) :
    ∀ l : List (ZMod p), (longDivDesc y l).length = l.length - 1
  | [] => by simp [longDivDesc]
  | [a] => by simp [longDivDesc]
  | a :: b :: rest => by
    rw [longDivDesc]
    simp only [List.length_cons, longDivDesc_length y ((b - y * a) :: rest)]
    simp

/-- Correctness of the long-division loop against the monic linear divisor:
the dividend equals `(κ + y)`·quotient plus the constant remainder, which is
the dividend's value at `-y`. -/
theorem longDivDesc_spec (y z : ZMod p) :
    ∀ l : List (ZMod p),
      evalDesc l z = (z + y) * evalDesc (longDivDesc y l) z + evalDesc l (-y)
  | [] => by simp [longDivDesc, evalDesc]
  | [a] => by
    simp only [longDivDesc, evalDesc, List.foldl_cons, List.foldl_nil]
    ring
  | a :: b :: rest => by
    have key : ∀ w : ZMod p, evalDesc (a :: b :: rest) w
        = evalDesc ((b - y * a) :: rest) w + a * (w + y) * w ^ rest.length := by
      intro w
      rw [evalDesc_cons, evalDesc_cons, evalDesc_cons]
      simp only [List.length_cons]
      rw [pow_succ]
      ring
    rw [key z, key (-y), longDivDesc,
      evalDesc_cons a (longDivDesc y ((b - y * a) :: rest)) z,
      longDivDesc_length, longDivDesc_spec y z ((b - y * a) :: rest)]
    simp only [List.length_cons, Nat.add_sub_cancel]
    ring

theorem evalDesc_append_singleton (L : List (ZMod p)) (c z : ZMod p) :
    evalDesc (L ++ [c]) z = evalDesc L z * z + c := by
  unfold evalDesc
  rw [List.foldl_append]
  rfl

theorem evalAsc_eq_evalDesc_reverse (l : List (ZMod p)) (z : ZMod p) :
    evalAsc l z = evalDesc l.reverse z := by
  induction l with
  | nil => rfl
  | cons c cs ih =>
    rw [evalAsc_cons, List.reverse_cons, evalDesc_append_singleton, ih]
    ring

theorem evalDesc_dropWhile_zero (L : List (ZMod p)) (z : ZMod p) :
    evalDesc (L.dropWhile (fun c => decide (c = 0))) z = evalDesc L z := by
  induction L with
  | nil => rfl
  | cons c cs ih =>
    by_cases hc : c = 0
    · subst hc
      rw [List.dropWhile_cons]
      simp only [decide_eq_true_eq, eq_self_iff_true, if_true]
      rw [ih, evalDesc_cons]
      ring
    · rw [List.dropWhile_cons]
      simp [hc]

theorem evalAsc_dropTrailingZeros (l : List (ZMod p)) (z : ZMod p) :
    evalAsc (dropTrailingZeros l) z = evalAsc l z := by
  unfold dropTrailingZeros
  rw [evalAsc_eq_evalDesc_reverse, List.reverse_reverse,
    evalDesc_dropWhile_zero, ← evalAsc_eq_evalDesc_reverse]

theorem dropTrailingZeros_length_le (l : List (ZMod p)) :
    (dropTrailingZeros l).length ≤ l.length := by
  unfold dropTrailingZeros
  rw [List.length_reverse]
  calc (l.reverse.dropWhile (fun c => decide (c = 0))).length
      ≤ l.reverse.length := (List.dropWhile_sublist _).length_le
    _ = l.length := List.length_reverse l

/-- Correctness of `_polynomial_division` for an exact division by `(κ + y)`:
whenever `-y` is a root of the dividend, quotient·`(z + y)` re-evaluates to
the dividend. -/
theorem polyDivLinear_spec (h : List (ZMod p)) (y z : ZMod p)
    (hroot : evalAsc h (-y) = 0) :
    evalAsc (polyDivLinear h y) z * (z + y) = evalAsc h z := by
  unfold polyDivLinear
  by_cases hlen : (dropTrailingZeros h).length < 2
  · rw [if_pos hlen]
    have hconst : evalAsc h z = 0 := by
      rw [← evalAsc_dropTrailingZeros h z]
      rw [← evalAsc_dropTrailingZeros h (-y)] at hroot
      rcases hd : dropTrailingZeros h with _ | ⟨c, _ | ⟨c2, rest⟩⟩
      · simp [evalAsc_nil]
      · rw [hd] at hroot
        simp only [evalAsc_cons, evalAsc_nil, mul_zero, add_zero] at hroot ⊢
        exact hroot
      · rw [hd] at hlen
        exact absurd hlen (by simp only [List.length_cons]; omega)
    rw [hconst]
    simp [evalAsc_cons, evalAsc_nil]
  · rw [if_neg hlen]
    rw [evalAsc_eq_evalDesc_reverse, List.reverse_reverse]
    have spec := longDivDesc_spec y z (dropTrailingZeros h).reverse
    have hzero : evalDesc (dropTrailingZeros h).reverse (-y) = 0 := by
      rw [← evalAsc_eq_evalDesc_reverse, evalAsc_dropTrailingZeros]
      exact hroot
    rw [hzero, add_zero] at spec
    rw [mul_comm, ← spec, ← evalAsc_eq_evalDesc_reverse,
      evalAsc_dropTrailingZeros]

theorem polyDivLinear_length_le (h : List (ZMod p)) (y : ZMod p) :
    (polyDivLinear h y).length ≤ max 1 (h.length - 1) := by
  unfold polyDivLinear
  by_cases hlen : (dropTrailingZeros h).length < 2
  · rw [if_pos hlen]
    simp
  · rw [if_neg hlen]
    rw [List.length_reverse, longDivDesc_length, List.length_reverse]
    have := dropTrailingZeros_length_le h
    omega

/-- Weighted sum `∑ i, l[i] · f i`, the value of the witness-assembly loop
`w *= server_keys[i] ** v_i` in log form. -/
def evalW : List (ZMod p) → (ℕ → ZMod p) → ZMod p
  | [], _ => 0
  | a :: rest, f => a * f 0 + evalW rest (fun i => f (i + 1))

theorem zip_range_foldl :
    ∀ (l : List (ZMod p)) (g : ℕ → ZMod p) (c : ℕ) (acc : ZMod p),
      l.length ≤ c →
      (l.zip ((List.range c).map g)).foldl (fun a vw => a + vw.1 * vw.2) acc
        = acc + evalW l g
  | [], _, _, acc, _ => by simp [evalW]
  | a :: rest, g, c, acc, hle => by
    obtain ⟨c', rfl⟩ : ∃ c', c = c' + 1 := ⟨c - 1, by simp at hle; omega⟩
    rw [List.range_succ_eq_map]
    simp only [List.map_cons, List.map_map, List.zip_cons_cons,
      List.foldl_cons]
    have hle' : rest.length ≤ c' := by simp at hle; omega
    rw [show (List.map (g ∘ Nat.succ) (List.range c'))
        = (List.range c').map (fun i => g (i + 1)) from rfl,
      zip_range_foldl rest (fun i => g (i + 1)) c' (acc + a * g 0) hle']
    simp [evalW]
    ring

theorem evalW_mul_pow (l : List (ZMod p)) :
    ∀ (s b : ZMod p), evalW l (fun i => b * s ^ i) = b * evalAsc l s := by
  induction l with
  | nil => intro s b; simp [evalW, evalAsc_nil]
  | cons a rest ih =>
    intro s b
    show a * (b * s ^ 0) + evalW rest (fun i => b * s ^ (i + 1))
      = b * evalAsc (a :: rest) s
    have hf : (fun i => b * s ^ (i + 1)) = fun i => (b * s) * s ^ i := by
      funext i
      rw [pow_succ]
      ring
    rw [hf, ih s (b * s), evalAsc_cons]
    ring

theorem evalW_pow (l : List (ZMod p)) (s : ZMod p) :
    evalW l (s ^ ·) = evalAsc l s := by
  have h := evalW_mul_pow l s 1
  simp only [one_mul] at h
  exact h

theorem uY_eq_neg_prod (X : List (ZMod p)) (y : ZMod p) :
    uY X y = -((X.map (· - y)).prod) := by
  unfold uY
  congr 1
  have : ∀ (l : List (ZMod p)) (acc : ZMod p),
      l.foldl (fun a x => a * (x - y)) acc = acc * (l.map (· - y)).prod := by
    intro l
    induction l with
    | nil => intro acc; simp
    | cons x xs ih =>
      intro acc
      simp only [List.foldl_cons, List.map_cons, List.prod_cons, ih]
      ring
  rw [this X 1, one_mul]

theorem addConst_eval (c : ZMod p) (r : List (ZMod p)) (u z : ZMod p) :
    evalAsc (addConst (c :: r) u) z = evalAsc (c :: r) z + u := by
  simp only [addConst, evalAsc_cons]
  ring

theorem addConst_length (l : List (ZMod p)) (u : ZMod p) :
    (addConst l u).length = l.length := by
  cases l <;> rfl

/-- **C3.** After `k ≥ 1` revocations: against the honest server keys
`(g, g^s, …, g^{s^k})` and the honest accumulator value
`f = g^{∏_{x∈X}(H(x)+s)}`, an item whose hash differs from every blacklisted
hash receives from `prove_non_membership` a witness pair `(w, u)` that
`verify_non_membership` accepts, while an item whose hash is blacklisted
makes `prove_non_membership` fail with the distinguished item-in-blacklist
error and no witness is produced. -/
theorem non_membership_complete [Fact p.Prime] (k : ℕ) (s y : ZMod p)
    (X : List (ZMod p)) (hlen : X.length = k) (hk : 1 ≤ k) :
    ((∀ x ∈ X, x ≠ y) →
      ∃ w u, prove_non_membership (server_keys_honest s k) (f_acc X s) y X
          = .ok (w, u) ∧
        verify_non_membership s (f_acc X s) y (w, u) = true) ∧
    (y ∈ X →
      prove_non_membership (server_keys_honest s k) (f_acc X s) y X
        = .error .itemInBlacklist) := by
  have hks : (server_keys_honest s k).length = k + 1 := by
    simp [server_keys_honest]
  have hq : ¬((server_keys_honest s k).length - 1 = 0) := by
    rw [hks]
    omega
  have hXne : X ≠ [] := by
    intro h
    rw [h] at hlen
    simp at hlen
    omega
  have hne : ¬(X.isEmpty = true) := by
    cases X with
    | nil => exact absurd rfl hXne
    | cons a l => simp
  constructor
  · intro hxy
    have hu : uY X y ≠ 0 := by
      rw [uY_eq_neg_prod, neg_ne_zero]
      rw [Ne, List.prod_eq_zero_iff]
      intro h0
      obtain ⟨x, hx, hx0⟩ := List.mem_map.mp h0
      exact hxy x hx (by rwa [sub_eq_zero] at hx0)
    obtain ⟨c, r, hpc⟩ : ∃ c r, polyCoeffs X = c :: r := by
      rcases h : polyCoeffs X with _ | ⟨c, r⟩
      · have hl := polyCoeffs_length X
        rw [h] at hl
        simp at hl
      · exact ⟨c, r, rfl⟩
    have hlen2 : (polyDivLinear (addConst (polyCoeffs X) (uY X y)) y).length ≤ k := by
      have h1 := polyDivLinear_length_le (addConst (polyCoeffs X) (uY X y)) y
      rw [addConst_length, polyCoeffs_length, hlen] at h1
      simp only [Nat.add_sub_cancel] at h1
      omega
    have h4 : ¬((server_keys_honest s k).length
        < (polyDivLinear (addConst (polyCoeffs X) (uY X y)) y).length) := by
      rw [hks]
      omega
    have hw : ((polyDivLinear (addConst (polyCoeffs X) (uY X y)) y).zip
        (server_keys_honest s k)).foldl (fun acc vw => acc + vw.1 * vw.2) 0
        = evalAsc (polyDivLinear (addConst (polyCoeffs X) (uY X y)) y) s := by
      unfold server_keys_honest
      rw [zip_range_foldl _ _ (k + 1) 0 (by omega), zero_add, evalW_pow]
    refine ⟨evalAsc (polyDivLinear (addConst (polyCoeffs X) (uY X y)) y) s,
      uY X y, ?_, ?_⟩
    · simp only [prove_non_membership]
      rw [if_neg hq, if_neg hne, if_neg hu, if_neg h4, hw]
    · unfold verify_non_membership
      rw [decide_eq_true_eq]
      have hroot : evalAsc (addConst (polyCoeffs X) (uY X y)) (-y) = 0 := by
        rw [hpc, addConst_eval, ← hpc, polyCoeffs_eval, uY_eq_neg_prod]
        simp only [← sub_eq_add_neg]
        simp
      have hdiv := polyDivLinear_spec (addConst (polyCoeffs X) (uY X y)) y s hroot
      calc evalAsc (polyDivLinear (addConst (polyCoeffs X) (uY X y)) y) s * (y + s)
          = evalAsc (polyDivLinear (addConst (polyCoeffs X) (uY X y)) y) s * (s + y) := by
            ring
        _ = evalAsc (addConst (polyCoeffs X) (uY X y)) s := hdiv
        _ = evalAsc (polyCoeffs X) s + uY X y := by
            rw [hpc, addConst_eval, ← hpc]
        _ = f_acc X s + uY X y := by
            rw [polyCoeffs_eval]
            rfl
  · intro hy
    have hu : uY X y = 0 := by
      rw [uY_eq_neg_prod]
      have h0 : (0 : ZMod p) ∈ X.map (· - y) :=
        List.mem_map.mpr ⟨y, hy, sub_self y⟩
      rw [List.prod_eq_zero h0, neg_zero]
    simp only [prove_non_membership]
    rw [if_neg hq, if_neg hne, if_pos hu]

/-- Witness for C3 at `p = 5`, `k = 1`, `s = 2`, blacklist hashes `X = [4]`,
queried hash `y = 3 ∉ X` (and, for the refusal half, `y = 4 ∈ X`). -/
theorem non_membership_complete_witness :
    (∀ x ∈ ([4] : List (ZMod 5)), x ≠ 3) ∧
    (∃ w u, prove_non_membership (server_keys_honest (2 : ZMod 5) 1)
        (f_acc [4] 2) 3 [4] = .ok (w, u) ∧
      verify_non_membership 2 (f_acc [4] 2) 3 (w, u) = true) ∧
    prove_non_membership (server_keys_honest (2 : ZMod 5) 1)
        (f_acc [4] 2) 4 [4] = .error .itemInBlacklist := by
  haveI : Fact (Nat.Prime 5) := ⟨by norm_num⟩
  refine ⟨by decide, ?_, ?_⟩
  · exact (non_membership_complete 1 2 3 [4] (by decide) (by decide)).1 (by decide)
  · exact (non_membership_complete 1 2 4 [4] (by decide) (by decide)).2 (by decide)

/-- **C7.** With the empty blacklist (zero revocations, `server_keys = (g,)`),
`prove_non_membership` returns exactly the degenerate pair
`(1_{𝔾₁}, −1)` — logs `(0, −1)` — for every queried item and every `X`
argument, and `verify_non_membership` accepts it against `f = g` (log `1`)
and the accumulator public key. -/
theorem empty_blacklist_degenerate_witness_verifies (s y f : ZMod p)
    (X : List (ZMod p)) :
    prove_non_membership (server_keys_honest s 0) f y X = .ok (0, -1) ∧
    verify_non_membership s 1 y (0, -1) = true := by
  constructor
  · simp only [prove_non_membership]
    rw [if_pos]
    simp [server_keys_honest]
  · unfold verify_non_membership
    rw [decide_eq_true_eq]
    simp

/-! ## vds_server.py — StorageServer storage map

`self.storage` is a Python dict `batch_id → (public_header, secrets_for_ss)`;
we model it as a partial map `ℕ → Option V` (batch-id strings abstracted as
naturals, the stored pair as an arbitrary type `V`). -/

/-- Embeds `vds_server.py::StorageServer.store_batch`:
`self.storage[batch_id] = (public_header, secrets_for_ss)` — an
unconditional dict assignment. -/
def store_batch {V : Type} (storage : ℕ → Option V) (batch_id : ℕ)
    (entry : V) : ℕ → Option V :=
  Function.update storage batch_id (some entry)

/-- **C10, counterexample.** A state in which batch id `0` is already stored
with entry `0`: calling `store_batch` with id `0` and entry `1` neither fails
(it is a total assignment) nor leaves the mapping unchanged — the old entry
is overwritten. -/
theorem store_batch_no_overwrite_counterexample :
    (fun _ => (some 0 : Option ℕ)) 0 = some 0 ∧
    store_batch (fun _ => (some 0 : Option ℕ)) 0 1 0 = some 1 ∧
    store_batch (fun _ => (some 0 : Option ℕ)) 0 1 0 ≠ some 0 := by
  refine ⟨rfl, ?_, ?_⟩ <;> simp [store_batch]

/-- **C10, amended.** `store_batch` on a batch id already present in the
storage map unconditionally replaces the stored entry with the new one
(last write wins — no insert-only guard exists), while every other stored
batch is unchanged. -/
theorem store_batch_overwrites {V : Type} (storage : ℕ → Option V)
    (batch_id : ℕ) (entry : V) :
    store_batch storage batch_id entry batch_id = some entry ∧
    ∀ b : ℕ, b ≠ batch_id → store_batch storage batch_id entry b = storage b := by
  refine ⟨by simp [store_batch], fun b hb => ?_⟩
  simp [store_batch, Function.update_noteq hb]

/-- Witness for the amended C10 at a concrete state. -/
theorem store_batch_overwrites_witness :
    store_batch (fun _ => (none : Option ℕ)) 5 7 5 = some 7 ∧
    store_batch (fun _ => (none : Option ℕ)) 5 7 6 = none :=
  ⟨(store_batch_overwrites (fun _ => none) 5 7).1,
   (store_batch_overwrites (fun _ => none) 5 7).2 6 (by decide)⟩

/-! ## The CRS dictionary and `prove_point_open_ghat` (claim C9)

`keygen_crs` returns a dict whose `'alpha'` entry holds the trapdoor "for
testing only; should be deleted in production" (its own docstring).  We model
the dict as a record: `alphaField` is the `'alpha'` entry (`none` when the
trapdoor has been deleted), while `alphaGen` is the trapdoor value used at
generation time, which determines the `g_list` / `g_hat_list` entries
(`g_hat_list[i]` has log `alphaGen ^ i`) whether or not `alphaField` is
retained. -/

structure CRSDict (p : ℕ) : Type where
  n : ℕ
  alphaField : Option (ZMod p)
  alphaGen : ZMod p
  deriving DecidableEq

/-- Errors surfaced by the `vc_smallness` proof generators. -/
inductive VcErr : Type
  | badPosition
  | keyErrorAlpha
  | bitLengthExceedsN
  | valueOutOfRange
  deriving DecidableEq

/-- Embeds `vc_smallness/proofs.py::prove_point_open_ghat`.  After the
position check, the source unconditionally executes `alpha = crs['alpha']`
(a `KeyError` when the trapdoor entry is absent — modelled as
`.error .keyErrorAlpha`), and then builds
`π_i = ĝ_{n+1-i}^γ · ∏_{j≠i} ĝ_{n+1-i+j}^{x_j}` where the factor for an
index `idx ≤ n` is taken from `g_hat_list` (log `alphaGen ^ idx`) and the
factor for `idx > n` is computed as `ĝ^{α^idx}` from the retained trapdoor
(log `alpha ^ idx`). -/
def prove_point_open_ghat (crs : CRSDict p) (x : ℕ → ZMod p)
    (gamma : ZMod p) (i : ℕ) : Except VcErr (ZMod p) :=
  let n := crs.n
  if 1 ≤ i ∧ i ≤ n then
    match crs.alphaField with
    | none => .error .keyErrorAlpha
    | some alpha =>
      .ok (crs.alphaGen ^ (n + 1 - i) * gamma +
        ∑ j in (Icc 1 n).erase i,
          (if n < n + 1 - i + j then alpha ^ (n + 1 - i + j)
            else crs.alphaGen ^ (n + 1 - i + j)) * x j)
  else .error .badPosition

/-- **C9.** `prove_point_open_ghat` reads the CRS trapdoor entry `'alpha'`:
on a CRS from which the `alpha` field is absent (the production profile the
CRS docstring itself prescribes) it fails with a `KeyError` instead of
computing the opening from the CRS group elements, for every valid input. -/
theorem prove_point_open_ghat_requires_alpha (n : ℕ) (aGen : ZMod p)
    (x : ℕ → ZMod p) (gamma : ZMod p) (i : ℕ) (hi : 1 ≤ i ∧ i ≤ n) :
    prove_point_open_ghat ⟨n, none, aGen⟩ x gamma i = .error .keyErrorAlpha := by
  simp [prove_point_open_ghat, hi]

/-- Witness for C9 at `p = 5`, `n = 2`, `i = 1`. -/
theorem prove_point_open_ghat_requires_alpha_witness :
    prove_point_open_ghat (⟨2, none, 3⟩ : CRSDict 5) (fun _ => 1) 1 1
      = .error .keyErrorAlpha :=
  prove_point_open_ghat_requires_alpha 2 3 (fun _ => 1) 1 1 (by decide)

/-! ## vds_utils.py — serialization and the binding signature

Byte strings are `List ℕ`.  The external primitives (charm's per-element
`serialize()`, Python's `str()` of a list, SHA-256, the ECDSA pair over
NIST P-256, and the accumulator's hash of signature bytes) are opaque to the
core; they are bundled as a record of abstract functions, so every theorem
below holds for all of them — in particular for the real ones.  ECDSA
signature byte strings are abstracted as tokens in `ℕ`
(`serialize_signature` is the identity on them, as in the source). -/

abbrev Bytes := List ℕ

/-- The abstract external primitives used by the VDS layer. -/
structure Prims (p : ℕ) : Type where
  ser1 : ZMod p → Bytes
  ser2 : ZMod p → Bytes
  strList : List (ZMod p) → Bytes
  strSig : ℕ → Bytes
  sha256 : Bytes → Bytes
  ecdsaSign : Bytes → ℕ
  ecdsaVerify : ℕ → Bytes → Bool
  hashItem : ℕ → ZMod p

/-- The runtime type of a value handed to `serialize_group_element`: a single
𝔾₁ or 𝔾₂ element, or a Python *list* of 𝔾₁ elements (which is what
`create_batch` passes). -/
inductive SerArg (p : ℕ) : Type
  | g1 (v : ZMod p)
  | g2 (v : ZMod p)
  | g1list (l : List (ZMod p))

/-- Embeds `vds_utils.py::serialize_group_element`: a group element has a
`.serialize()` method; a Python list has none, so the `AttributeError`
fallback `str(elem).encode('utf-8')` fires and the bytes are the string
representation of the whole list. -/
def serialize_group_element (P : Prims p) : SerArg p → Bytes
  | .g1 v => P.ser1 v
  | .g2 v => P.ser2 v
  | .g1list l => P.strList l

/-- Embeds `vds_utils.py::serialize_for_signing`: the concatenation
`C_data_bytes + C_time_bytes` — the data argument FIRST, then `C_time`. -/
def serialize_for_signing (P : Prims p) (C_data C_time : SerArg p) : Bytes :=
  serialize_group_element P C_data ++ serialize_group_element P C_time

/-- Embeds `vds_utils.py::hash_for_signing`: SHA-256 of
`serialize_for_signing`. -/
def hash_for_signing (P : Prims p) (C_data C_time : SerArg p) : Bytes :=
  P.sha256 (serialize_for_signing P C_data C_time)

/-- Embeds `vds_utils.py::sign_batch`: `σ = Sign(sk, hash_for_signing(...))`. -/
def sign_batch (P : Prims p) (C_data C_time : SerArg p) : ℕ :=
  P.ecdsaSign (hash_for_signing P C_data C_time)

/-! ## Batch headers and secrets

`create_batch` returns the public header as a Python dict with string keys;
we keep it as an association list of string keys so that key lookups behave
exactly as dict accesses (a missing key is a `KeyError`). -/

/-- A value stored in a header slot. -/
inductive HVal (p : ℕ) : Type
  | g1elem (v : ZMod p)
  | g2elem (v : ZMod p)
  | g1elemList (l : List (ZMod p))
  | sigBytes (s : ℕ)
  deriving DecidableEq

abbrev Header (p : ℕ) := List (String × HVal p)

/-- The `secrets_for_ss` dict of `create_batch`. -/
structure Secrets (p : ℕ) : Type where
  m_matrix : List (List (ZMod p))
  t : List (ZMod p)
  gamma_data_list : List (ZMod p)
  gamma_time : ZMod p
  deriving DecidableEq

/-- The `ValueError`s (and uncaught `KeyError`s) of the VDS protocol layer;
`accError` wraps a re-raised accumulator error that is not the
item-in-blacklist one. -/
inductive VdsErr : Type
  | vectorLengthMismatch
  | emptyMatrix
  | batchNotFound
  | columnOutOfRange
  | keyError
  | accError (e : AccErr)
  | vcError (e : VcErr)
  deriving DecidableEq

/-- 1-based view of a 0-indexed Python list: `vec l j` is `l[j-1]`
(out-of-range reads never happen on the paths we verify). -/
def vec (l : List (ZMod p)) : ℕ → ZMod p := fun j => l.getD (j - 1) 0

/-- Embeds `vds_owner.py::DataOwner.create_batch` on the matrix path (the
1-D compatibility branch merely wraps a single column into `[m]` before
reaching this code).  The sampled blinding scalars are parameters:
`gamma_time` for `C_time` and `gamma_data i` for column `i`.  Builds
`C_time`, one `C_data` per column, the binding signature — note that the
whole Python list `C_data_list` is passed as the first signing argument —
the batch id (SHA-256 of the signed message; its truncation to 16 hex
characters is an injective renaming we omit), the public header dict and
the secrets dict. -/
def create_batch (n : ℕ) (alpha : ZMod p) (P : Prims p)
    (m_matrix : List (List (ZMod p))) (t_vector : List (ZMod p))
    (gamma_time : ZMod p) (gamma_data : ℕ → ZMod p) :
    Except VdsErr (Bytes × Header p × Secrets p) :=
  if t_vector.length ≠ n then .error .vectorLengthMismatch
  else if m_matrix.length = 0 then .error .emptyMatrix
  else if m_matrix.any (fun col => col.length ≠ n) then .error .vectorLengthMismatch
  else
    let C_time := commit_Ghat n (vec t_vector) gamma_time alpha
    let C_data_list := m_matrix.mapIdx fun i col => commit_G n (vec col) (gamma_data i) alpha
    let sigma := sign_batch P (.g1list C_data_list) (.g2 C_time)
    let batch_id := P.sha256 (hash_for_signing P (.g1list C_data_list) (.g2 C_time))
    .ok (batch_id,
      [("C_data_list", .g1elemList C_data_list),
       ("C_time", .g2elem C_time),
       ("sigma", .sigBytes sigma)],
      ⟨m_matrix, t_vector, m_matrix.mapIdx (fun i _ => gamma_data i), gamma_time⟩)

/-! ## vds_verifier.py — the Verifier -/

/-- Bytes a header value contributes when hashed for signature verification
(`serialize_group_element` applied to whatever sits in the slot). -/
def hval_bytes (P : Prims p) : HVal p → Bytes
  | .g1elem v => P.ser1 v
  | .g2elem v => P.ser2 v
  | .g1elemList l => P.strList l
  | .sigBytes s => P.strSig s

/-- Embeds `vds_utils.py::verify_batch_signature` as called by the verifier
on header slots: recompute `hash_for_signing(C_data, C_time)` and check the
ECDSA signature (any exception, e.g. a non-bytes `σ`, yields `False`). -/
def verify_batch_signature (P : Prims p) (cd ct sg : HVal p) : Bool :=
  match sg with
  | .sigBytes s => P.ecdsaVerify s (P.sha256 (hval_bytes P cd ++ hval_bytes P ct))
  | _ => false

/-- Embeds `vds_verifier.py::Verifier._verify_precheck`.  The body runs under
a blanket `except Exception: return False, None`; in particular the very
first header access `public_header["C_data"]` raises `KeyError` when that
key is absent and the precheck returns `(False, None)`.  Otherwise: check 1
verifies the binding signature, check 2 verifies the non-membership witness
against `f_current` and the accumulator public key (`s` is the log of
`ĝ^s`). -/
def verify_precheck (P : Prims p) (s f_current : ZMod p) (header : Header p)
    (pi_non : ZMod p × ZMod p) : Bool × Option (HVal p) :=
  match List.lookup "C_data" header with
  | none => (false, none)
  | some cd =>
    match List.lookup "C_time" header, List.lookup "sigma" header with
    | some ct, some sg =>
      match sg with
      | .sigBytes sbytes =>
        if verify_batch_signature P cd ct sg then
          if verify_non_membership s f_current (P.hashItem sbytes) pi_non then
            (true, some cd)
          else (false, none)
        else (false, none)
      | _ => (false, none)
    | _, _ => (false, none)

/-- Embeds `vds_verifier.py::Verifier.verify_dc_query`: precheck, then the
aggregated form of equation (1),
`e(C, ∏_{i=1}^n ĝ_{n+1-i}^{t_i}) = e(π_audit, ĝ) · e(g_1, ĝ_n)^{x}`.
The source's product loop silently skips absent `g_hat_list` indices, but
`n+1-i ∈ [1..n]` is always present.  If the precheck ever handed back a
non-element `C_data` (it cannot on the reachable paths) the pairing call
would raise; that dead branch is `false` here. -/
def verify_dc_query (n : ℕ) (alpha : ZMod p) (P : Prims p) (s f_current : ZMod p)
    (header : Header p) (t : ℕ → ZMod p) (x_result pi_audit : ZMod p)
    (pi_non : ZMod p × ZMod p) : Bool :=
  match verify_precheck P s f_current header pi_non with
  | (false, _) => false
  | (true, some (.g1elem C_data)) =>
    decide (C_data * (∑ i in Icc 1 n, alpha ^ (n + 1 - i) * t i)
      = pi_audit * 1 + alpha ^ 1 * alpha ^ n * x_result)
  | (true, _) => false

/-- **C1.** For every batch honestly produced by `create_batch`,
`verify_dc_query` on its public header returns `False` for every challenge
and every proof: `_verify_precheck` reads the header key `"C_data"`, but the
header `create_batch` builds has the key `"C_data_list"`, so the lookup
raises `KeyError`, the blanket `except` turns it into a failed precheck, and
the query is rejected — the happy path of the claim never verifies. -/
theorem verify_dc_query_rejects_honest_batch (n : ℕ) (alpha : ZMod p)
    (P : Prims p) (m_matrix : List (List (ZMod p))) (t_vector : List (ZMod p))
    (gamma_time : ZMod p) (gamma_data : ℕ → ZMod p)
    (bid : Bytes) (hdr : Header p) (sec : Secrets p)
    (hcb : create_batch n alpha P m_matrix t_vector gamma_time gamma_data
      = .ok (bid, hdr, sec))
    (s f : ZMod p) (t : ℕ → ZMod p) (x pi_audit : ZMod p)
    (pi_non : ZMod p × ZMod p) :
    verify_dc_query n alpha P s f hdr t x pi_audit pi_non = false := by
  unfold create_batch at hcb
  split at hcb
  · exact absurd hcb (by simp)
  split at hcb
  · exact absurd hcb (by simp)
  split at hcb
  · exact absurd hcb (by simp)
  simp only [Except.ok.injEq, Prod.mk.injEq] at hcb
  obtain ⟨-, hh, -⟩ := hcb
  subst hh
  unfold verify_dc_query verify_precheck
  simp [List.lookup]

/-! ### Concrete instantiations of the abstract primitives (for witnesses
and counterexamples).  `ser1`/`ser2` are injective byte encodings of the
element logs, `strList` models Python's `str()` of a list (which always
starts with the byte `'['` = 91), `sha256` is instantiated as the identity
(every theorem quantified over `Prims` holds for it). -/

def prims0 : Prims 5 where
  ser1 := fun v => [v.val]
  ser2 := fun v => [100 + v.val]
  strList := fun l => 91 :: l.map (fun v => v.val)
  strSig := fun s => [s]
  sha256 := id
  ecdsaSign := fun _ => 0
  ecdsaVerify := fun _ _ => true
  hashItem := fun s => (s : ZMod 5)

def CDL0 : List (ZMod 5) := [commit_G 1 (vec [2]) 1 2]

def CT0 : ZMod 5 := commit_Ghat 1 (vec [3]) 1 2

def bid0 : Bytes := prims0.sha256 (hash_for_signing prims0 (.g1list CDL0) (.g2 CT0))

def hdr0 : Header 5 :=
  [("C_data_list", .g1elemList CDL0),
   ("C_time", .g2elem CT0),
   ("sigma", .sigBytes (sign_batch prims0 (.g1list CDL0) (.g2 CT0)))]

def sec0 : Secrets 5 := ⟨[[2]], [3], [1], 1⟩

/-- Witness for C1: a concrete honest batch (`n = 1`, `m = [[2]]`,
`t = [3]`) is rejected by `verify_dc_query` whatever the challenge, result
and proofs. -/
theorem verify_dc_query_rejects_honest_batch_witness :
    verify_dc_query 1 2 prims0 0 1 hdr0 (fun _ => 1) 1 1 (0, 0) = false :=
  verify_dc_query_rejects_honest_batch 1 2 prims0 [[2]] [3] 1 (fun _ => 1)
    bid0 hdr0 sec0 (by rfl) 0 1 (fun _ => 1) 1 1 (0, 0)

/-- Modelled from the spec: the signing input the specification describes —
`serialise(C_time) ‖ serialise(C_data_list[0]) ‖ … ‖ serialise(C_data_list[d-1])`
(C_time first, then the per-element serialisations of the data commitments).
Defined only to compare against the source's `hash_for_signing`. -/
def spec_signing_bytes (P : Prims p) (C_time : ZMod p)
    (C_data_list : List (ZMod p)) : Bytes :=
  P.ser2 C_time ++ (C_data_list.map P.ser1).flatten

/-- **C4, counterexample.** At a concrete instantiation of the primitives
(`d = 1` column, data commitment log 2, time commitment log 1), the bytes
`hash_for_signing` actually hashes — `str(C_data_list)` first, then
`serialise(C_time)` — differ from the spec's
`serialise(C_time) ‖ serialise(C_data_list[0])`, so the claimed equality
fails. -/
theorem hash_for_signing_spec_order_counterexample :
    hash_for_signing prims0 (.g1list [2]) (.g2 1)
      ≠ prims0.sha256 (spec_signing_bytes prims0 1 [2]) := by
  decide

/-- **C4, amended.** The message `create_batch` signs (and whose SHA-256 is
both the signing input and the batch-id preimage) is
`serialize(C_data_list) ‖ serialize(C_time)` — the *data argument first*,
and the data argument is the whole Python list, serialised via the
`str()` fallback (`AttributeError` on `list.serialize`), not the
concatenation of per-element serialisations. -/
theorem create_batch_signing_input (n : ℕ) (alpha : ZMod p) (P : Prims p)
    (m_matrix : List (List (ZMod p))) (t_vector : List (ZMod p))
    (gamma_time : ZMod p) (gamma_data : ℕ → ZMod p)
    (bid : Bytes) (hdr : Header p) (sec : Secrets p)
    (hcb : create_batch n alpha P m_matrix t_vector gamma_time gamma_data
      = .ok (bid, hdr, sec)) :
    hdr = [("C_data_list", .g1elemList
              (m_matrix.mapIdx fun i col => commit_G n (vec col) (gamma_data i) alpha)),
           ("C_time", .g2elem (commit_Ghat n (vec t_vector) gamma_time alpha)),
           ("sigma", .sigBytes (P.ecdsaSign (P.sha256
              (P.strList (m_matrix.mapIdx fun i col => commit_G n (vec col) (gamma_data i) alpha)
                ++ P.ser2 (commit_Ghat n (vec t_vector) gamma_time alpha)))))] ∧
    bid = P.sha256 (P.sha256
      (P.strList (m_matrix.mapIdx fun i col => commit_G n (vec col) (gamma_data i) alpha)
        ++ P.ser2 (commit_Ghat n (vec t_vector) gamma_time alpha))) := by
  unfold create_batch at hcb
  split at hcb
  · exact absurd hcb (by simp)
  split at hcb
  · exact absurd hcb (by simp)
  split at hcb
  · exact absurd hcb (by simp)
  simp only [Except.ok.injEq, Prod.mk.injEq] at hcb
  obtain ⟨hb, hh, -⟩ := hcb
  subst hb
  subst hh
  exact ⟨rfl, rfl⟩

/-- Witness for the amended C4 at the concrete batch of `hdr0`. -/
theorem create_batch_signing_input_witness :
    hdr0 = [("C_data_list", .g1elemList
              (([[2]] : List (List (ZMod 5))).mapIdx fun _i col => commit_G 1 (vec col) 1 2)),
           ("C_time", .g2elem (commit_Ghat 1 (vec [3]) 1 2)),
           ("sigma", .sigBytes (prims0.ecdsaSign (prims0.sha256
              (prims0.strList (([[2]] : List (List (ZMod 5))).mapIdx fun _i col => commit_G 1 (vec col) 1 2)
                ++ prims0.ser2 (commit_Ghat 1 (vec [3]) 1 2)))))] ∧
    bid0 = prims0.sha256 (prims0.sha256
      (prims0.strList (([[2]] : List (List (ZMod 5))).mapIdx fun _i col => commit_G 1 (vec col) 1 2)
        ++ prims0.ser2 (commit_Ghat 1 (vec [3]) 1 2))) :=
  create_batch_signing_input 1 2 prims0 [[2]] [3] 1 (fun _ => 1) bid0 hdr0 sec0 (by rfl)

/-! ## vds_server.py — proof generation for DC queries -/

/-- Embeds `vds_server.py::StorageServer.generate_dc_data_proof`.
State: the storage map, the accumulator server keys and the replicated
blacklist `revoked_items` (signature-byte tokens; `serialize_signature` is
the identity).  Looks up the batch (`batch_id not in storage` is
`BatchNotFound`); reads `C_data_list` and `sigma` from the header dict;
checks the column index; checks the challenge length against `n = len(m)`;
computes `x = ∑ m_i t_i`; builds the point openings (whose internal length
validation against the CRS dimension is the `m.length ≠ crsN` branch) and
aggregates `π_audit = ∏ π_i^{t_i}`; finally generates the non-membership
witness for `σ`, turning exactly the item-in-blacklist error into the dummy
witness `(1_{𝔾₁}, 0)` — logs `(0, 0)` — and re-raising any other
accumulator error. -/
def generate_dc_data_proof (crsN : ℕ) (alpha : ZMod p) (P : Prims p)
    (storage : ℕ → Option (Header p × Secrets p))
    (server_acc_keys : List (ZMod p)) (revoked_items : List ℕ)
    (batch_id : ℕ) (t_challenge : List (ZMod p)) (f_current : ZMod p)
    (column_index : ℕ) : Except VdsErr (ZMod p × ZMod p × (ZMod p × ZMod p)) :=
  match storage batch_id with
  | none => .error .batchNotFound
  | some (header, secrets) =>
    match List.lookup "C_data_list" header, List.lookup "sigma" header with
    | some (.g1elemList _C_data_list), some (.sigBytes sigma) =>
      if column_index < secrets.m_matrix.length then
        let m := secrets.m_matrix.getD column_index []
        let gamma_data := secrets.gamma_data_list.getD column_index 0
        if t_challenge.length ≠ m.length then .error .vectorLengthMismatch
        else if m.length ≠ crsN then .error .vectorLengthMismatch
        else
          let x_result := ∑ i in Icc 1 m.length, vec m i * vec t_challenge i
          let pi_audit := ∑ i in Icc 1 m.length,
            vec t_challenge i * prove_point_open crsN (vec m) gamma_data i alpha
          match prove_non_membership server_acc_keys f_current
              (P.hashItem sigma) (revoked_items.map P.hashItem) with
          | .ok w => .ok (x_result, pi_audit, w)
          | .error .itemInBlacklist => .ok (x_result, pi_audit, (0, 0))
          | .error e => .error (.accError e)
      else .error .columnOutOfRange
    | _, _ => .error .keyError

/-- **C8.** For a stored batch whose signature is in the server's blacklist
(with the protocol invariant `|server_keys| = |X| + 1` maintained by the
revocation choreography), `generate_dc_data_proof` does not raise: it
returns `x` and `π_audit` together with the dummy witness `(1_{𝔾₁}, 0)`;
and that dummy witness is rejected by `verify_non_membership` for every
accumulator value `f' ≠ 1_{𝔾₁}` (log `0`), so the verifier sees a clean
rejection. -/
theorem generate_dc_proof_revoked_returns_dummy (crsN : ℕ) (alpha : ZMod p)
    (P : Prims p) (storage : ℕ → Option (Header p × Secrets p))
    (sk : List (ZMod p)) (X : List ℕ) (bid : ℕ) (cdl : List (ZMod p))
    (ct : ZMod p) (sigma : ℕ) (sec : Secrets p) (t : List (ZMod p))
    (f : ZMod p) (ci : ℕ)
    (hstore : storage bid = some
      ([("C_data_list", .g1elemList cdl), ("C_time", .g2elem ct),
        ("sigma", .sigBytes sigma)], sec))
    (hsig : sigma ∈ X)
    (hkeys : sk.length = X.length + 1)
    (hci : ci < sec.m_matrix.length)
    (ht : t.length = (sec.m_matrix.getD ci []).length)
    (hn : (sec.m_matrix.getD ci []).length = crsN) :
    (∃ x pa, generate_dc_data_proof crsN alpha P storage sk X bid t f ci
      = .ok (x, pa, (0, 0))) ∧
    ∀ s f' : ZMod p, f' ≠ 0 →
      verify_non_membership s f' (P.hashItem sigma) (0, 0) = false := by
  have hXne : X ≠ [] := by
    intro h
    rw [h] at hsig
    exact absurd hsig (List.not_mem_nil sigma)
  have hXlen : 1 ≤ X.length := List.length_pos.mpr hXne
  have hpnm : prove_non_membership sk f (P.hashItem sigma) (X.map P.hashItem)
      = .error .itemInBlacklist := by
    have hu : uY (X.map P.hashItem) (P.hashItem sigma) = 0 := by
      rw [uY_eq_neg_prod]
      have h0 : (0 : ZMod p) ∈ (X.map P.hashItem).map (· - P.hashItem sigma) :=
        List.mem_map.mpr ⟨P.hashItem sigma,
          List.mem_map.mpr ⟨sigma, hsig, rfl⟩, sub_self _⟩
      rw [List.prod_eq_zero h0, neg_zero]
    have hq : ¬(sk.length - 1 = 0) := by omega
    have hne : ¬((X.map P.hashItem).isEmpty = true) := by
      cases X with
      | nil => exact absurd rfl hXne
      | cons a l => simp
    simp only [prove_non_membership]
    rw [if_neg hq, if_neg hne, if_pos hu]
  constructor
  · have hn2 : sec.m_matrix[ci].length = crsN := by
      rw [List.getD_eq_getElem sec.m_matrix [] hci] at hn
      exact hn
    unfold generate_dc_data_proof
    rw [hstore]
    simp [List.lookup, hci, ht, hn, hn2, hpnm]
  · intro s f' hf'
    simp only [verify_non_membership, zero_mul, add_zero]
    exact decide_eq_false fun h => hf' h.symm

def hdrC : Header 5 :=
  [("C_data_list", .g1elemList [2]), ("C_time", .g2elem 1),
   ("sigma", .sigBytes 7)]

def storC : ℕ → Option (Header 5 × Secrets 5) :=
  fun b => if b = 0 then some (hdrC, sec0) else none

/-- Witness for C8: a concrete server state whose only batch has its
signature (token `7`) blacklisted. -/
theorem generate_dc_proof_revoked_returns_dummy_witness :
    (∃ x pa, generate_dc_data_proof 1 2 prims0 storC [1, 2] [7] 0 [1] 3 0
      = .ok (x, pa, (0, 0))) ∧
    verify_non_membership 2 3 (prims0.hashItem 7) (0, 0) = false := by
  have h := generate_dc_proof_revoked_returns_dummy 1 2 prims0 storC [1, 2] [7]
    0 [2] 1 7 sec0 [1] 3 0 (by rfl) (by decide) (by decide) (by decide)
    (by decide) (by decide)
  exact ⟨h.1, h.2 2 3 (by decide)⟩

/-! ## The composite zero-knowledge range proof (vc_smallness, §4.6/§4.7)

The remaining proof generators are direct multi-exponentiations; `prove_eq`
builds two numpy coefficient arrays and exponentiates the CRS to their
difference.  Coefficient arrays are embedded as coefficient *functions*
`ℕ → ZMod p` (`c k` = the array entry at degree `k`, zero beyond the array),
which is exactly how the source's slice arithmetic manipulates them.

The Fiat-Shamir challenges of the range proof are SHA-256 digests of the
`str()` serialisations of the commitments, mapped into 𝔽_p.  Prover and
verifier apply the same construction to the same elements, so we abstract
each derivation as an arbitrary function of those elements (a `RangeFS`
record); every theorem holds for all such functions, in particular for the
real SHA-256-based ones. -/

/-- Embeds `vc_smallness/commit.py::scalar_to_bits`: little-endian bits
`(x >> i) & 1` for `i < ℓ`. -/
def scalar_to_bits (x ell : ℕ) : List ℕ :=
  (List.range ell).map fun i => (x >>> i) &&& 1

/-- Embeds `vc_smallness/commit.py::bits_to_scalar`:
`∑ bits[i] · 2^i` injected into 𝔽_p (all inputs we pass are 0/1 bits, so
the source's bit-validation never fires). -/
def bits_to_scalar (bits : List ℕ) : ZMod p :=
  ((∑ i in range bits.length, bits.getD i 0 * 2 ^ i : ℕ) : ZMod p)

/-- Embeds `vc_smallness/proofs.py::prove_x`:
`π_x = (∏_{i=1}^ℓ π_i^{2^{i-1}}) · g_n^{-r}` (index `n ∈ g_list` ✓). -/
def prove_x (bit_proofs : List (ZMod p)) (r : ZMod p) (n : ℕ)
    (alpha : ZMod p) : ZMod p :=
  (∑ i in Icc 1 bit_proofs.length, ((2 ^ (i - 1) : ℕ) : ZMod p) * vec bit_proofs i)
    + alpha ^ n * (-r)

/-- Embeds `vc_smallness/proofs.py::prove_y`:
`π_y = g^{γγ_y} · ∏_j g_{n+1-j}^{γ y_j(x_j-1)} ·
∏_i (g_i^{γ_y} · ∏_{j≠i} g_{n+1-j+i}^{y_j(x_j-1)})^{x_i}`
(indices `n+1-j ∈ [1..n]`, `i ∈ [1..n]`, `n+1-j+i ∈ [2..2n] \ {n+1}` for
`j ≠ i`, so every guard passes). -/
def prove_y (x y : ℕ → ZMod p) (gamma gamma_y : ZMod p) (n : ℕ)
    (alpha : ZMod p) : ZMod p :=
  gamma * gamma_y
    + ∑ j in Icc 1 n, alpha ^ (n + 1 - j) * (gamma * y j * (x j - 1))
    + ∑ i in Icc 1 n,
        (alpha ^ i * gamma_y
          + ∑ j in (Icc 1 n).erase i, alpha ^ (n + 1 - j + i) * (y j * (x j - 1)))
          * x i

/-- Embeds `vc_smallness/proofs.py::prove_v`:
`π_v = ∏_{i=2}^n (g_{n+1-i}^r · g_{n+2-i}^x)^{s_i}`; `s i` is the source's
`s[i-2]` (the challenge at 1-based position `i`).  Indices
`n+1-i ∈ [1..n-1]` and `n+2-i ∈ [2..n]` are present. -/
def prove_v (x_scalar r : ZMod p) (s : ℕ → ZMod p) (n : ℕ)
    (alpha : ZMod p) : ZMod p :=
  ∑ i in Icc 2 n, (alpha ^ (n + 1 - i) * r + alpha ^ (n + 2 - i) * x_scalar) * s i

/-- Coefficient function of the inner polynomial
`γ + ∑_{j∈[n], j≠i} x_j X^j` (the source's `M_X - x_i X^i + γ`). -/
def innerN (n : ℕ) (x : ℕ → ZMod p) (gamma : ZMod p) (i : ℕ) : ℕ → ZMod p :=
  fun d => if d = 0 then gamma
    else if 1 ≤ d ∧ d ≤ n ∧ d ≠ i then x d else 0

/-- Coefficient function of
`P_num(X) = ∑_i (t_i y_i) · X^{n+1-i} · (γ + ∑_{j≠i} x_j X^j)` as built by
`prove_eq` (skipping a zero-weight term adds the zero polynomial, so the
unconditional sum is the same array). -/
def PnumCoeff (n : ℕ) (t y x : ℕ → ZMod p) (gamma : ZMod p) (k : ℕ) : ZMod p :=
  ∑ i in Icc 1 n, t i * y i
    * (if n + 1 - i ≤ k then innerN n x gamma i (k - (n + 1 - i)) else 0)

/-- Coefficient function of the inner polynomial
`γ_y + ∑_{j∈[n], j≠i} (y_j x_j) X^{n+1-j}` (the source's
`YX_X - y_i x_i X^{n+1-i} + γ_y`); degree `d ∈ [1..n]` holds `y_j x_j` for
`j = n+1-d`. -/
def innerD (n : ℕ) (y x : ℕ → ZMod p) (gamma_y : ZMod p) (i : ℕ) : ℕ → ZMod p :=
  fun d => if d = 0 then gamma_y
    else if 1 ≤ d ∧ d ≤ n ∧ n + 1 - d ≠ i then y (n + 1 - d) * x (n + 1 - d) else 0

/-- Coefficient function of
`P_den(X) = ∑_i t_i · X^i · (γ_y + ∑_{j≠i} (y_j x_j) X^{n+1-j})`. -/
def PdenCoeff (n : ℕ) (t y x : ℕ → ZMod p) (gamma_y : ZMod p) (k : ℕ) : ZMod p :=
  ∑ i in Icc 1 n, t i * (if i ≤ k then innerD n y x gamma_y i (k - i) else 0)

/-- Embeds `vc_smallness/proofs.py::prove_eq`: build the coefficients of
`P_π = P_num - P_den` (degree ≤ 2n) and raise the CRS to them — degree 0
uses the bare generator, degree `n+1` is *silently skipped* (`continue`),
every other degree `≤ 2n` is present in `g_list`. -/
def prove_eq (n : ℕ) (t y x : ℕ → ZMod p) (gamma gamma_y alpha : ZMod p) :
    ZMod p :=
  ∑ k in range (2 * n + 1),
    if k = n + 1 then 0
    else (PnumCoeff n t y x gamma k - PdenCoeff n t y x gamma_y k) * alpha ^ k

/-- The dict returned by `prove_range_proof`. -/
structure RangeProof (p : ℕ) : Type where
  C_hat : ZMod p
  V_hat : ZMod p
  C_y : ZMod p
  pi_agg : ZMod p
  l : ℕ
  deriving DecidableEq

/-- The Fiat-Shamir derivations of the composite range proof, abstracted as
arbitrary functions of the transcript elements they hash
(`sha256(str(·)+…)` reduced mod `p` in the source). -/
structure RangeFS (p : ℕ) : Type where
  hy : ZMod p → ZMod p → ZMod p
  ht : ZMod p → ZMod p → ZMod p → ZMod p
  dx : ZMod p → ZMod p → ZMod p → ZMod p
  deq : ZMod p → ZMod p → ZMod p → ZMod p
  dy : ZMod p → ZMod p → ZMod p → ZMod p
  dv : ZMod p → ZMod p → ZMod p → ZMod p

/-- The construction stage of `vc_smallness/proofs.py::prove_range_proof`
(everything after its two input checks).  The sampled blinders `γ` (for
`Ĉ`), `r` (for `V̂`) and `γ_y` (for `C_y`) are parameters.  Decomposes `x`
into `ℓ` bits padded to length `n`, builds the commitments — note `C_y` is
built with `commit_G` (forward indexing `g_j`), exactly as the source's
step 5 `C_y = commit_G(y_circ_x, gamma_y, crs)` does — the `ℓ` point
openings and `π_x`, derives `y` and `t` (vectors `(y,0,…,0)`,
`(t,0,…,0)`), builds `π_eq`, `π_y`, `π_v` (with `s = t_vec[1:]`), derives
the four `δ`s and aggregates. -/
def range_proof_body (n : ℕ) (alpha : ZMod p) (F : RangeFS p)
    (x_value : ZMod p) (l : ℕ) (gamma r gamma_y : ZMod p) : RangeProof p :=
  let x_int := x_value.val
  let x_bits_int := scalar_to_bits x_int l
  let bitf : ℕ → ZMod p := fun j => ((x_bits_int.getD (j - 1) 0 : ℕ) : ZMod p)
  let C_hat := commit_Ghat n bitf gamma alpha
  let x_scalar : ZMod p := bits_to_scalar x_bits_int
  let V_hat := commit_V x_scalar r alpha
  let bit_proofs := (List.range l).map fun i0 =>
    prove_point_open n bitf gamma (i0 + 1) alpha
  let pi_x := prove_x bit_proofs r n alpha
  let y := F.hy C_hat V_hat
  let y_vec : ℕ → ZMod p := fun j => if j = 1 then y else 0
  let C_y := commit_G n (fun j => y_vec j * bitf j) gamma_y alpha
  let t := F.ht y C_hat C_y
  let t_vec : ℕ → ZMod p := fun j => if j = 1 then t else 0
  let pi_eq := prove_eq n t_vec y_vec bitf gamma gamma_y alpha
  let pi_y := prove_y bitf y_vec gamma gamma_y n alpha
  let pi_v := prove_v x_scalar r t_vec n alpha
  let pi_agg := F.dx C_hat V_hat C_y * pi_x + F.deq C_hat V_hat C_y * pi_eq
    + F.dy C_hat V_hat C_y * pi_y + F.dv C_hat V_hat C_y * pi_v
  ⟨C_hat, V_hat, C_y, pi_agg, l⟩

/-- Embeds `vc_smallness/proofs.py::prove_range_proof` (the full §4.6
pipeline): raise unless `ℓ ≤ n` and `x < 2^ℓ`, then run the construction. -/
def prove_range_proof (n : ℕ) (alpha : ZMod p) (F : RangeFS p)
    (x_value : ZMod p) (l : ℕ) (gamma r gamma_y : ZMod p) :
    Except VcErr (RangeProof p) :=
  if n < l then .error .bitLengthExceedsN
  else if 2 ^ l ≤ x_value.val then .error .valueOutOfRange
  else .ok (range_proof_body n alpha F x_value l gamma r gamma_y)

/-- Embeds `vc_smallness/verify.py::verify_range_proof`: check
`l = proof['l']`, re-derive every Fiat-Shamir challenge from
`(Ĉ, V̂, C_y)`, build the four division-form LHS values of equations
(9), (5), (7), (20), raise them to the `δ`s and compare against
`e(π_agg, ĝ)`.  The `idx not in g_list → return False` guards can only fire
via `n+1-i` underflowing for `i > n`, i.e. when `l > n`; that early-`false`
branch is made explicit. -/
def verify_range_proof (n : ℕ) (alpha : ZMod p) (F : RangeFS p)
    (proof : RangeProof p) (l : ℕ) : Bool :=
  if l ≠ proof.l then false
  else if n < l then false
  else
    let C_hat := proof.C_hat
    let V_hat := proof.V_hat
    let C_y := proof.C_y
    let y := F.hy C_hat V_hat
    let y_vec : ℕ → ZMod p := fun j => if j = 1 then y else 0
    let t := F.ht y C_hat C_y
    let t_vec : ℕ → ZMod p := fun j => if j = 1 then t else 0
    let lhs9 := (∑ i in Icc 1 l, alpha ^ (n + 1 - i) * ((2 ^ (i - 1) : ℕ) : ZMod p))
        * C_hat - alpha ^ n * V_hat
    let lhs5 := (∑ i in Icc 1 n, alpha ^ (n + 1 - i) * (t_vec i * y_vec i)) * C_hat
      - C_y * (∑ i in Icc 1 n, alpha ^ i * t_vec i)
    let lhs7 := (C_y + ∑ j in Icc 1 n, alpha ^ (n + 1 - j) * (-(y_vec j))) * C_hat
    let lhs20 := (∑ i in Icc 2 n, alpha ^ (n + 1 - i) * t_vec i) * V_hat
    let lhs_agg := F.dx C_hat V_hat C_y * lhs9 + F.deq C_hat V_hat C_y * lhs5
      + F.dy C_hat V_hat C_y * lhs7 + F.dv C_hat V_hat C_y * lhs20
    decide (lhs_agg = proof.pi_agg * 1)

/-! ### Summation helpers for the coefficient-array arguments -/

theorem filter_le_range (s D : ℕ) :
    (range D).filter (fun k => s ≤ k) = Ico s D := by
  ext k
  simp only [Finset.mem_filter, Finset.mem_range, Finset.mem_Ico]
  omega

/-- Evaluating a shifted coefficient array: the array of `X^s · G(X)` sums to
`α^s · G(α)`. -/
theorem shift_eval (alpha : ZMod p) (s D : ℕ) (g : ℕ → ZMod p) :
    ∑ k in range D, (if s ≤ k then g (k - s) else 0) * alpha ^ k
      = alpha ^ s * ∑ d in range (D - s), g d * alpha ^ d := by
  calc ∑ k in range D, (if s ≤ k then g (k - s) else 0) * alpha ^ k
      = ∑ k in range D, (if s ≤ k then g (k - s) * alpha ^ k else 0) :=
        Finset.sum_congr rfl fun k _ => by rw [ite_mul, zero_mul]
    _ = ∑ k in (range D).filter (fun k => s ≤ k), g (k - s) * alpha ^ k :=
        (Finset.sum_filter _ _).symm
    _ = ∑ k in Ico s D, g (k - s) * alpha ^ k := by rw [filter_le_range]
    _ = ∑ d in range (D - s), g (s + d - s) * alpha ^ (s + d) :=
        Finset.sum_Ico_eq_sum_range _ _ _
    _ = alpha ^ s * ∑ d in range (D - s), g d * alpha ^ d := by
        rw [Finset.mul_sum]
        refine Finset.sum_congr rfl fun d _ => ?_
        rw [Nat.add_sub_cancel_left, pow_add]
        ring

/-- A coefficient array vanishing from degree `N` on can be summed over
`range N` only. -/
theorem range_shrink (alpha : ZMod p) (g : ℕ → ZMod p) (M N : ℕ)
    (hNM : N ≤ M) (hg : ∀ d, N ≤ d → g d = 0) :
    ∑ d in range M, g d * alpha ^ d = ∑ d in range N, g d * alpha ^ d := by
  symm
  apply Finset.sum_subset (Finset.range_subset.mpr hNM)
  intro d hd hnd
  rw [hg d (by simp only [Finset.mem_range] at hnd ⊢; omega), zero_mul]

theorem erase_to_ite (n i : ℕ) (f : ℕ → ZMod p) (hi : i ∈ Icc 1 n) :
    ∑ j in (Icc 1 n).erase i, f j
      = ∑ j in Icc 1 n, if j = i then 0 else f j := by
  rw [← Finset.sum_erase_add (Icc 1 n) (fun j => if j = i then 0 else f j) hi,
    if_pos rfl, add_zero]
  exact Finset.sum_congr rfl fun j hj => by
    rw [if_neg (Finset.ne_of_mem_erase hj)]

theorem sum_reflect_erase (n i : ℕ) (hi : i ∈ Icc 1 n) (f : ℕ → ZMod p) :
    ∑ j in (Icc 1 n).erase i, f j
      = ∑ d in (Icc 1 n).erase (n + 1 - i), f (n + 1 - d) := by
  have hi2 := mem_Icc.mp hi
  apply Finset.sum_nbij' (fun j => n + 1 - j) (fun d => n + 1 - d)
  · intro a ha
    have h1 := Finset.mem_erase.mp ha
    have h2 := mem_Icc.mp h1.2
    refine Finset.mem_erase.mpr ⟨by omega, mem_Icc.mpr ⟨by omega, by omega⟩⟩
  · intro a ha
    have h1 := Finset.mem_erase.mp ha
    have h2 := mem_Icc.mp h1.2
    refine Finset.mem_erase.mpr ⟨by omega, mem_Icc.mpr ⟨by omega, by omega⟩⟩
  · intro a ha
    have h2 := mem_Icc.mp (Finset.mem_erase.mp ha).2
    omega
  · intro a ha
    have h2 := mem_Icc.mp (Finset.mem_erase.mp ha).2
    omega
  · intro a ha
    have h2 := mem_Icc.mp (Finset.mem_erase.mp ha).2
    congr 1
    omega

/-- The inner polynomial of `P_num` evaluates (in the exponent) to
`γ + ∑_{j≠i} α^j x_j`. -/
theorem inner_eval_N (n i : ℕ) (x : ℕ → ZMod p) (gamma alpha : ZMod p)
    (hi : i ∈ Icc 1 n) :
    ∑ d in range (n + 1), innerN n x gamma i d * alpha ^ d
      = gamma + ∑ j in (Icc 1 n).erase i, alpha ^ j * x j := by
  rw [Finset.sum_range_succ']
  have h0 : innerN n x gamma i 0 * alpha ^ 0 = gamma := by simp [innerN]
  rw [h0, erase_to_ite n i _ hi, ← Nat.Ico_succ_right,
    Finset.sum_Ico_eq_sum_range]
  rw [add_comm]
  congr 1
  refine Finset.sum_congr rfl fun d hd => ?_
  have hdn : d < n := Finset.mem_range.mp hd
  by_cases hdi : d + 1 = i
  · have h1 : 1 + d = i := by omega
    have hi0 : i ≠ 0 := by
      have := mem_Icc.mp hi
      omega
    simp [innerN, hdi, h1, hi0]
  · have h1 : ¬(1 + d = i) := by omega
    have h2 : d + 1 ≤ n := by omega
    rw [if_neg h1]
    simp only [innerN]
    rw [if_neg (by omega), if_pos ⟨by omega, h2, hdi⟩,
      show 1 + d = d + 1 by omega]
    ring

/-- The inner polynomial of `P_den` evaluates (in the exponent) to
`γ_y + ∑_{j≠i} α^{n+1-j} (y_j x_j)`. -/
theorem inner_eval_D (n i : ℕ) (y x : ℕ → ZMod p) (gamma_y alpha : ZMod p)
    (hi : i ∈ Icc 1 n) :
    ∑ d in range (n + 1), innerD n y x gamma_y i d * alpha ^ d
      = gamma_y + ∑ j in (Icc 1 n).erase i, alpha ^ (n + 1 - j) * (y j * x j) := by
  have hi2 := mem_Icc.mp hi
  have hrefl : ∑ j in (Icc 1 n).erase i, alpha ^ (n + 1 - j) * (y j * x j)
      = ∑ d in (Icc 1 n).erase (n + 1 - i),
          alpha ^ (n + 1 - (n + 1 - d)) * (y (n + 1 - d) * x (n + 1 - d)) :=
    sum_reflect_erase n i hi _
  have hii : n + 1 - i ∈ Icc 1 n := mem_Icc.mpr ⟨by omega, by omega⟩
  rw [Finset.sum_range_succ']
  have h0 : innerD n y x gamma_y i 0 * alpha ^ 0 = gamma_y := by simp [innerD]
  rw [h0, hrefl, erase_to_ite n (n + 1 - i) _ hii, ← Nat.Ico_succ_right,
    Finset.sum_Ico_eq_sum_range]
  rw [add_comm]
  congr 1
  refine Finset.sum_congr rfl fun d hd => ?_
  have hdn : d < n := Finset.mem_range.mp hd
  by_cases hdi : n + 1 - (d + 1) = i
  · have h1 : 1 + d = n + 1 - i := by omega
    simp [innerD, hdi, h1]
  · have h1 : ¬(1 + d = n + 1 - i) := by omega
    rw [if_neg h1]
    simp only [innerD]
    rw [if_neg (by omega), if_pos ⟨by omega, by omega, hdi⟩]
    have e1 : n + 1 - (n + 1 - (1 + d)) = d + 1 := by omega
    have e2 : n + 1 - (1 + d) = n + 1 - (d + 1) := by omega
    rw [e1, e2]
    ring

/-- Evaluating the `P_num` coefficient array in the exponent. -/
theorem Pnum_eval (n : ℕ) (t y x : ℕ → ZMod p) (gamma alpha : ZMod p) :
    ∑ k in range (2 * n + 1), PnumCoeff n t y x gamma k * alpha ^ k
      = ∑ i in Icc 1 n, t i * y i * (alpha ^ (n + 1 - i)
          * (gamma + ∑ j in (Icc 1 n).erase i, alpha ^ j * x j)) := by
  unfold PnumCoeff
  calc ∑ k in range (2 * n + 1), (∑ i in Icc 1 n, t i * y i
        * (if n + 1 - i ≤ k then innerN n x gamma i (k - (n + 1 - i)) else 0)) * alpha ^ k
      = ∑ k in range (2 * n + 1), ∑ i in Icc 1 n, t i * y i
          * ((if n + 1 - i ≤ k then innerN n x gamma i (k - (n + 1 - i)) else 0) * alpha ^ k) :=
        Finset.sum_congr rfl fun k _ => by
          rw [Finset.sum_mul]
          exact Finset.sum_congr rfl fun i _ => by ring
    _ = ∑ i in Icc 1 n, ∑ k in range (2 * n + 1), t i * y i
          * ((if n + 1 - i ≤ k then innerN n x gamma i (k - (n + 1 - i)) else 0) * alpha ^ k) :=
        Finset.sum_comm
    _ = _ := by
        refine Finset.sum_congr rfl fun i hi => ?_
        have h2 := mem_Icc.mp hi
        rw [← Finset.mul_sum, shift_eval alpha (n + 1 - i) (2 * n + 1) (innerN n x gamma i),
          range_shrink alpha (innerN n x gamma i) (2 * n + 1 - (n + 1 - i)) (n + 1)
            (by omega) (fun d hd => by
              simp only [innerN]
              rw [if_neg (by omega), if_neg (by omega)]),
          inner_eval_N n i x gamma alpha hi]

/-- Evaluating the `P_den` coefficient array in the exponent. -/
theorem Pden_eval (n : ℕ) (t y x : ℕ → ZMod p) (gamma_y alpha : ZMod p) :
    ∑ k in range (2 * n + 1), PdenCoeff n t y x gamma_y k * alpha ^ k
      = ∑ i in Icc 1 n, t i * (alpha ^ i
          * (gamma_y + ∑ j in (Icc 1 n).erase i, alpha ^ (n + 1 - j) * (y j * x j))) := by
  unfold PdenCoeff
  calc ∑ k in range (2 * n + 1), (∑ i in Icc 1 n, t i
        * (if i ≤ k then innerD n y x gamma_y i (k - i) else 0)) * alpha ^ k
      = ∑ k in range (2 * n + 1), ∑ i in Icc 1 n, t i
          * ((if i ≤ k then innerD n y x gamma_y i (k - i) else 0) * alpha ^ k) :=
        Finset.sum_congr rfl fun k _ => by
          rw [Finset.sum_mul]
          exact Finset.sum_congr rfl fun i _ => by ring
    _ = ∑ i in Icc 1 n, ∑ k in range (2 * n + 1), t i
          * ((if i ≤ k then innerD n y x gamma_y i (k - i) else 0) * alpha ^ k) :=
        Finset.sum_comm
    _ = _ := by
        refine Finset.sum_congr rfl fun i hi => ?_
        have h2 := mem_Icc.mp hi
        rw [← Finset.mul_sum, shift_eval alpha i (2 * n + 1) (innerD n y x gamma_y i),
          range_shrink alpha (innerD n y x gamma_y i) (2 * n + 1 - i) (n + 1)
            (by omega) (fun d hd => by
              simp only [innerD]
              rw [if_neg (by omega), if_neg (by omega)]),
          inner_eval_D n i y x gamma_y alpha hi]

theorem PnumCoeff_nplus1 (n : ℕ) (t y x : ℕ → ZMod p) (gamma : ZMod p) :
    PnumCoeff n t y x gamma (n + 1) = 0 := by
  unfold PnumCoeff
  refine Finset.sum_eq_zero fun i hi => ?_
  have h2 := mem_Icc.mp hi
  rw [if_pos (by omega), show n + 1 - (n + 1 - i) = i by omega]
  simp only [innerN]
  rw [if_neg (by omega), if_neg (by omega)]
  ring

theorem PdenCoeff_nplus1 (n : ℕ) (t y x : ℕ → ZMod p) (gamma_y : ZMod p) :
    PdenCoeff n t y x gamma_y (n + 1) = 0 := by
  unfold PdenCoeff
  refine Finset.sum_eq_zero fun i hi => ?_
  have h2 := mem_Icc.mp hi
  rw [if_pos (by omega)]
  simp only [innerD]
  rw [if_neg (by omega), if_neg (by omega)]
  ring

/-- `prove_eq` computes `P_num(α) - P_den(α)` — the skipped degree `n+1`
always has coefficient `0`. -/
theorem prove_eq_eval (n : ℕ) (t y x : ℕ → ZMod p)
    (gamma gamma_y alpha : ZMod p) :
    prove_eq n t y x gamma gamma_y alpha
      = (∑ i in Icc 1 n, t i * y i * (alpha ^ (n + 1 - i)
          * (gamma + ∑ j in (Icc 1 n).erase i, alpha ^ j * x j)))
        - ∑ i in Icc 1 n, t i * (alpha ^ i
          * (gamma_y + ∑ j in (Icc 1 n).erase i, alpha ^ (n + 1 - j) * (y j * x j))) := by
  unfold prove_eq
  have hskip : ∀ k ∈ range (2 * n + 1),
      (if k = n + 1 then 0
        else (PnumCoeff n t y x gamma k - PdenCoeff n t y x gamma_y k) * alpha ^ k)
      = PnumCoeff n t y x gamma k * alpha ^ k
        - PdenCoeff n t y x gamma_y k * alpha ^ k := by
    intro k _
    by_cases hk1 : k = n + 1
    · rw [if_pos hk1, hk1, PnumCoeff_nplus1, PdenCoeff_nplus1]
      ring
    · rw [if_neg hk1]
      ring
  rw [Finset.sum_congr rfl hskip, Finset.sum_sub_distrib, Pnum_eval, Pden_eval]

/-- The division-form LHS of equation (5) equals `e(π_eq, ĝ)` for the
honestly generated `π_eq`, for every `t`, `y`, `x`, `γ`, `γ_y`. -/
theorem lhs5_eq_prove_eq (n : ℕ) (t y x : ℕ → ZMod p)
    (gamma gamma_y alpha : ZMod p) :
    (∑ i in Icc 1 n, alpha ^ (n + 1 - i) * (t i * y i))
        * commit_Ghat n x gamma alpha
      - commit_Cy n y x gamma_y alpha * (∑ i in Icc 1 n, alpha ^ i * t i)
      = prove_eq n t y x gamma gamma_y alpha := by
  rw [prove_eq_eval]
  unfold commit_Ghat commit_Cy
  have hnum : (∑ i in Icc 1 n, alpha ^ (n + 1 - i) * (t i * y i))
      * (gamma + ∑ j in Icc 1 n, alpha ^ j * x j)
      = (∑ i in Icc 1 n, t i * y i * (alpha ^ (n + 1 - i)
          * (gamma + ∑ j in (Icc 1 n).erase i, alpha ^ j * x j)))
        + alpha ^ (n + 1) * ∑ i in Icc 1 n, t i * y i * x i := by
    rw [Finset.sum_mul]
    have key : ∀ i ∈ Icc 1 n,
        alpha ^ (n + 1 - i) * (t i * y i)
            * (gamma + ∑ j in Icc 1 n, alpha ^ j * x j)
          = t i * y i * (alpha ^ (n + 1 - i)
              * (gamma + ∑ j in (Icc 1 n).erase i, alpha ^ j * x j))
            + alpha ^ (n + 1) * (t i * y i * x i) := by
      intro i hi
      have h2 := mem_Icc.mp hi
      have hsplit : ∑ j in Icc 1 n, alpha ^ j * x j
          = (∑ j in (Icc 1 n).erase i, alpha ^ j * x j) + alpha ^ i * x i :=
        (Finset.sum_erase_add _ _ hi).symm
      have hpow : alpha ^ (n + 1 - i) * alpha ^ i = alpha ^ (n + 1) := by
        rw [← pow_add]
        congr 1
        omega
      rw [hsplit, ← hpow]
      ring
    rw [Finset.sum_congr rfl key, Finset.sum_add_distrib, ← Finset.mul_sum]
  have hden : (gamma_y + ∑ j in Icc 1 n, alpha ^ (n + 1 - j) * (y j * x j))
      * (∑ i in Icc 1 n, alpha ^ i * t i)
      = (∑ i in Icc 1 n, t i * (alpha ^ i
          * (gamma_y + ∑ j in (Icc 1 n).erase i, alpha ^ (n + 1 - j) * (y j * x j))))
        + alpha ^ (n + 1) * ∑ i in Icc 1 n, t i * y i * x i := by
    rw [Finset.mul_sum]
    have key : ∀ i ∈ Icc 1 n,
        (gamma_y + ∑ j in Icc 1 n, alpha ^ (n + 1 - j) * (y j * x j))
            * (alpha ^ i * t i)
          = t i * (alpha ^ i
              * (gamma_y + ∑ j in (Icc 1 n).erase i, alpha ^ (n + 1 - j) * (y j * x j)))
            + alpha ^ (n + 1) * (t i * y i * x i) := by
      intro i hi
      have h2 := mem_Icc.mp hi
      have hsplit : ∑ j in Icc 1 n, alpha ^ (n + 1 - j) * (y j * x j)
          = (∑ j in (Icc 1 n).erase i, alpha ^ (n + 1 - j) * (y j * x j))
            + alpha ^ (n + 1 - i) * (y i * x i) :=
        (Finset.sum_erase_add _ _ hi).symm
      have hpow : alpha ^ (n + 1 - i) * alpha ^ i = alpha ^ (n + 1) := by
        rw [← pow_add]
        congr 1
        omega
      rw [hsplit, ← hpow]
      ring
    rw [Finset.sum_congr rfl key, Finset.sum_add_distrib, ← Finset.mul_sum]
  rw [hnum, hden]
  ring

/-! ### Claim C5: the composite range proof on the code as written

`range_proof_body` builds `C_y` with `commit_G` (forward powers `g_j`),
while `prove_eq`, `prove_y` and the verifier's equations (5) and (7) are
built for the reverse-indexed `commit_Cy` (the commitment §4.3 calls
"crucial for the equality proof").  The two agree exactly when
`y_1 · x_1 = 0`, i.e. when bit 1 of `x̂` is `0` — so the composite proof
verifies for even `x̂` and fails for odd `x̂`.  The repo's own range-proof
tests use only the even values 10, 20, 30. -/

def F1 : RangeFS 101 :=
  ⟨fun _ _ => 2, fun _ _ _ => 2, fun _ _ _ => 1, fun _ _ _ => 1,
   fun _ _ _ => 1, fun _ _ _ => 1⟩

/-- **C5.** At the failing input `x̂ = 1`, `ℓ = 1`, `n = 2` (concrete
challenge derivations and blinders): `prove_range_proof` accepts the input
and produces its composite proof, but `verify_range_proof` rejects that
honestly generated proof — the claim's "verifies for every
x̂ ∈ [0, 2^ℓ−1]" fails for every odd `x̂`.  The out-of-range branch behaves
as claimed: `x̂ = 2 ≥ 2^1` is refused. -/
theorem range_proof_fails_on_odd_value :
    prove_range_proof 2 3 F1 1 1 5 7 11
      = .ok (range_proof_body 2 3 F1 1 1 5 7 11) ∧
    verify_range_proof 2 3 F1 (range_proof_body 2 3 F1 1 1 5 7 11) 1 = false ∧
    prove_range_proof 2 3 F1 2 1 5 7 11 = .error .valueOutOfRange := by
  refine ⟨rfl, by decide, rfl⟩

/-! ## vds_server.py — generate_time_range_proofs (claim C6) -/

/-- One entry of the list returned by `generate_time_range_proofs`. -/
structure TimeProof (p : ℕ) : Type where
  t_value : ZMod p
  range_proof : RangeProof p
  pi_non : ZMod p × ZMod p
  deriving DecidableEq

/-- The `for t_i in t` loop of `generate_time_range_proofs`: one composite
range proof per time value at `ℓ = 32`, all sharing `pi_non`; an exception
from `prove_range_proof` propagates out of the loop.  `idx` indexes the
per-iteration sampled blinders. -/
def timeLoop (n : ℕ) (alpha : ZMod p) (F : RangeFS p)
    (pi_non : ZMod p × ZMod p) (gammas rs gys : ℕ → ZMod p) :
    List (ZMod p) → ℕ → Except VdsErr (List (TimeProof p))
  | [], _ => .ok []
  | ti :: rest, idx =>
    match prove_range_proof n alpha F ti 32 (gammas idx) (rs idx) (gys idx) with
    | .error e => .error (.vcError e)
    | .ok rp =>
      match timeLoop n alpha F pi_non gammas rs gys rest (idx + 1) with
      | .error e => .error e
      | .ok tail => .ok (⟨ti, rp, pi_non⟩ :: tail)

/-- Embeds `vds_server.py::StorageServer.generate_time_range_proofs`:
look up the batch, read `σ` from the header, generate the shared
non-membership witness (turning exactly the item-in-blacklist error into
the dummy `(1_{𝔾₁}, 0)` and re-raising anything else), then build one
`ℓ = 32` composite range proof per entry of the stored time vector. -/
def generate_time_range_proofs (n : ℕ) (alpha : ZMod p) (P : Prims p)
    (F : RangeFS p) (storage : ℕ → Option (Header p × Secrets p))
    (server_acc_keys : List (ZMod p)) (revoked_items : List ℕ)
    (batch_id : ℕ) (f_current : ZMod p) (gammas rs gys : ℕ → ZMod p) :
    Except VdsErr (List (TimeProof p)) :=
  match storage batch_id with
  | none => .error .batchNotFound
  | some (header, secrets) =>
    match List.lookup "sigma" header with
    | some (.sigBytes sigma) =>
      match (match prove_non_membership server_acc_keys f_current
          (P.hashItem sigma) (revoked_items.map P.hashItem) with
        | .ok w => Except.ok w
        | .error .itemInBlacklist => Except.ok ((0 : ZMod p), (0 : ZMod p))
        | .error e => Except.error (VdsErr.accError e)) with
      | .error e => .error e
      | .ok pi_non => timeLoop n alpha F pi_non gammas rs gys secrets.t 0
    | _ => .error .keyError

def prims1 : Prims 101 :=
  ⟨fun _ => [], fun _ => [], fun _ => [], fun _ => [], id,
   fun _ => 0, fun _ _ => true, fun _ => 0⟩

def hdr16 : Header 101 :=
  [("C_data_list", .g1elemList [2]), ("C_time", .g2elem 1),
   ("sigma", .sigBytes 7)]

def sec16 : Secrets 101 := ⟨[], List.replicate 16 20, [], 1⟩

def stor16 : ℕ → Option (Header 101 × Secrets 101) :=
  fun b => if b = 0 then some (hdr16, sec16) else none

/-- **C6, counterexample.** With system dimension `n = 16` and a stored
batch whose time vector has sixteen entries equal to `20`,
`generate_time_range_proofs` does not return a list of proofs: the very
first `prove_range_proof(t_i, 32)` call raises the bit-length error
(`ℓ = 32 > n = 16`), which propagates to the caller. -/
theorem generate_time_range_proofs_n16_raises :
    generate_time_range_proofs 16 3 prims1 F1 stor16 [1] [] 0 1
      (fun _ => 1) (fun _ => 1) (fun _ => 1)
      = .error (.vcError .bitLengthExceedsN) := rfl

/-- Under the revocation-choreography invariant `|server_keys| = |X| + 1`,
the witness-generation stage of a proof RPC never re-raises: it yields
either a real witness or the item-in-blacklist error (turned into the
dummy witness by the caller). -/
theorem prove_non_membership_no_reraise (sk : List (ZMod p))
    (X : List (ZMod p)) (f y : ZMod p) (hkeys : sk.length = X.length + 1) :
    (∃ w, prove_non_membership sk f y X = .ok w) ∨
    prove_non_membership sk f y X = .error .itemInBlacklist := by
  by_cases h0 : sk.length - 1 = 0
  · refine Or.inl ⟨(0, -1), ?_⟩
    simp only [prove_non_membership]
    rw [if_pos h0]
  · have hX : X ≠ [] := by
      intro h
      rw [h] at hkeys
      simp at hkeys
      omega
    have hXlen : 1 ≤ X.length := List.length_pos.mpr hX
    have hne : ¬(X.isEmpty = true) := by
      cases X with
      | nil => exact absurd rfl hX
      | cons a l => simp
    by_cases hu : uY X y = 0
    · refine Or.inr ?_
      simp only [prove_non_membership]
      rw [if_neg h0, if_neg hne, if_pos hu]
    · have hq : ¬(sk.length
          < (polyDivLinear (addConst (polyCoeffs X) (uY X y)) y).length) := by
        have h1 := polyDivLinear_length_le (addConst (polyCoeffs X) (uY X y)) y
        rw [addConst_length, polyCoeffs_length] at h1
        simp only [Nat.add_sub_cancel] at h1
        rw [Nat.max_eq_right hXlen] at h1
        omega
      refine Or.inl ⟨(((polyDivLinear (addConst (polyCoeffs X) (uY X y)) y).zip
        sk).foldl (fun acc vw => acc + vw.1 * vw.2) 0, uY X y), ?_⟩
      simp only [prove_non_membership]
      rw [if_neg h0, if_neg hne, if_neg hu, if_neg hq]

/-- The time-proof loop succeeds when `32 ≤ n` and every entry fits in 32
bits, returning one `ℓ = 32` proof per entry with the shared witness. -/
theorem timeLoop_ok (n : ℕ) (alpha : ZMod p) (F : RangeFS p)
    (pin : ZMod p × ZMod p) (gammas rs gys : ℕ → ZMod p) (hn : 32 ≤ n) :
    ∀ (lst : List (ZMod p)) (idx : ℕ), (∀ ti ∈ lst, ti.val < 2 ^ 32) →
      ∃ tps, timeLoop n alpha F pin gammas rs gys lst idx = .ok tps ∧
        tps.length = lst.length ∧
        ∀ tp ∈ tps, tp.range_proof.l = 32 ∧ tp.pi_non = pin
  | [], _, _ => ⟨[], rfl, rfl, by simp⟩
  | ti :: rest, idx, hbound => by
    have hti := hbound ti (List.mem_cons_self ti rest)
    have step : prove_range_proof n alpha F ti 32 (gammas idx) (rs idx) (gys idx)
        = .ok (range_proof_body n alpha F ti 32 (gammas idx) (rs idx) (gys idx)) := by
      unfold prove_range_proof
      rw [if_neg (by omega), if_neg (by omega)]
    obtain ⟨tps, htps, hlen, hall⟩ := timeLoop_ok n alpha F pin gammas rs gys hn
      rest (idx + 1) (fun t ht => hbound t (List.mem_cons_of_mem ti ht))
    refine ⟨⟨ti, range_proof_body n alpha F ti 32 (gammas idx) (rs idx) (gys idx),
      pin⟩ :: tps, ?_, by simp [hlen], ?_⟩
    · simp only [timeLoop]
      rw [step, htps]
    · intro tp htp
      rcases List.mem_cons.mp htp with h | h
      · subst h
        exact ⟨rfl, rfl⟩
      · exact hall tp h

/-- **C6, amended.** `generate_time_range_proofs` returns one composite
range proof at `ℓ = 32` per entry of the stored time vector, all sharing
the one non-membership witness, provided the system dimension satisfies
`32 ≤ n` and every time entry is below `2^32` (and the server keys match
the blacklist per the protocol invariant); with `n = 16` as the claim
demands, the `ℓ = 32 > n` bit-length error is raised instead. -/
theorem generate_time_range_proofs_ok (n : ℕ) (alpha : ZMod p) (P : Prims p)
    (F : RangeFS p) (storage : ℕ → Option (Header p × Secrets p))
    (sk : List (ZMod p)) (X : List ℕ) (bid : ℕ) (f : ZMod p)
    (hdr : Header p) (sec : Secrets p) (sigma : ℕ) (gammas rs gys : ℕ → ZMod p)
    (hstore : storage bid = some (hdr, sec))
    (hsig : List.lookup "sigma" hdr = some (.sigBytes sigma))
    (hkeys : sk.length = X.length + 1)
    (hn : 32 ≤ n)
    (hbound : ∀ ti ∈ sec.t, ti.val < 2 ^ 32) :
    ∃ pin tps,
      generate_time_range_proofs n alpha P F storage sk X bid f gammas rs gys
        = .ok tps ∧
      tps.length = sec.t.length ∧
      ∀ tp ∈ tps, tp.range_proof.l = 32 ∧ tp.pi_non = pin := by
  have hkeys2 : sk.length = (X.map P.hashItem).length + 1 := by
    simpa using hkeys
  rcases prove_non_membership_no_reraise sk (X.map P.hashItem) f
      (P.hashItem sigma) hkeys2 with ⟨w, hw⟩ | hw
  · obtain ⟨tps, h1, h2, h3⟩ := timeLoop_ok n alpha F w gammas rs gys hn
      sec.t 0 hbound
    refine ⟨w, tps, ?_, h2, h3⟩
    simp only [generate_time_range_proofs, hstore, hsig, hw]
    exact h1
  · obtain ⟨tps, h1, h2, h3⟩ := timeLoop_ok n alpha F (0, 0) gammas rs gys hn
      sec.t 0 hbound
    refine ⟨(0, 0), tps, ?_, h2, h3⟩
    simp only [generate_time_range_proofs, hstore, hsig, hw]
    exact h1

def sec32 : Secrets 101 := ⟨[], [20], [], 1⟩

def stor32 : ℕ → Option (Header 101 × Secrets 101) :=
  fun b => if b = 0 then some (hdr16, sec32) else none

/-- Witness for the amended C6 at `n = 32` with a stored batch whose time
vector is `[20]`. -/
theorem generate_time_range_proofs_ok_witness :
    ∃ pin tps,
      generate_time_range_proofs 32 3 prims1 F1 stor32 [1] [] 0 1
          (fun _ => 1) (fun _ => 1) (fun _ => 1) = .ok tps ∧
      tps.length = sec32.t.length ∧
      ∀ tp ∈ tps, tp.range_proof.l = 32 ∧ tp.pi_non = pin :=
  generate_time_range_proofs_ok 32 3 prims1 F1 stor32 [1] [] 0 1 hdr16 sec32 7
    (fun _ => 1) (fun _ => 1) (fun _ => 1) (by rfl) (by rfl) (by rfl)
    (by omega) (by decide)

end StreamCommit
